import Mathlib

/-!
Verification development for the checklist tree engine of the keep-mcp-http
repository (src/server/rest_api.py, src/server/cli.py, src/server/keep_api.py).

The engine operates on a flat collection of list items; parent/child structure
is derived by scanning `parent_item` references.  Python mutates shared item
objects in place; we model the item collection as a `List Item` and model a
field mutation on an object as an id-keyed functional update.  The two coincide
whenever item ids are unique in the list (the backend assigns unique ids; the
`NoDupIds` hypothesis records this where a proof needs it).

Python's recursive helpers (`_check_all_children`, `_update_parent_checked_status`,
`_delete_item_with_children`) terminate only on acyclic parent structures; the
Lean versions take an explicit fuel argument, called with `items.length + 1`,
which is shown to be enough fuel on every well-formed (acyclic) list.
-/

/-- One checklist row, mirroring the fields of a backend list item used by the
source: `id`, `text`, `checked`, and `parent_item` (modelled by the parent's
id; `none` means top-level).  `sort` is never read by the engine logic under
verification and is omitted. -/
structure Item where
  id : String
  text : String
  checked : Bool
  parent : Option String
  deriving Repr, DecidableEq

abbrev Items := List Item

/-- The `for item in list: if item.id == wanted: found` scan used throughout
`rest_api.py` (e.g. lines 560-564) — first item whose id matches. -/
def findItem (items : Items) (i : String) : Option Item :=
  items.find? (fun it => it.id == i)

/-- Items whose `parent_item` is the item with id `pid`
(the scan `item.parent_item and item.parent_item.id == parent.id`). -/
def childItems (items : Items) (pid : String) : Items :=
  items.filter (fun it => it.parent == some pid)

/-- Ids of the direct children of `pid`. -/
def childIds (items : Items) (pid : String) : List String :=
  (childItems items pid).map Item.id

/-- Object mutation `item.checked = c` on the item with id `i`
(id-keyed update; equal to the Python object mutation when ids are unique). -/
def setChecked (items : Items) (i : String) (c : Bool) : Items :=
  items.map (fun it => if it.id == i then { it with checked := c } else it)

/-- Object mutation `item.text = tx`. -/
def setTextF (items : Items) (i : String) (tx : String) : Items :=
  items.map (fun it => if it.id == i then { it with text := tx } else it)

/-- `parent.indent(item)` / `parent.dedent(item)` change the item's
`parent_item` reference; per the spec's Reparent step this is
`target.parent_id = new_parent_id` (or `None` on dedent). -/
def setParent (items : Items) (i : String) (p : Option String) : Items :=
  items.map (fun it => if it.id == i then { it with parent := p } else it)

/-- `_check_all_children` / `_uncheck_all_children` (rest_api.py lines 129-141,
cli.py lines 365-377): for every item whose parent is `pid`, set its checked
flag to `c`, recursing into grandchildren immediately after each child.  The
two Python copies differ only in the constant `c`.  `fuel` bounds the
recursion depth (Python recurses without bound and loops on a parent cycle). -/
def cascadeChildren : Nat → Items → String → Bool → Items
  | 0, items, _, _ => items
  | fuel+1, items, pid, c =>
    (childIds items pid).foldl
      (fun acc cid => cascadeChildren fuel (setChecked acc cid c) cid c) items

/-- `_check_all_children`. -/
def checkAllChildren (fuel : Nat) (items : Items) (pid : String) : Items :=
  cascadeChildren fuel items pid true

/-- `_uncheck_all_children`. -/
def uncheckAllChildren (fuel : Nat) (items : Items) (pid : String) : Items :=
  cascadeChildren fuel items pid false

/-- `_update_parent_checked_status` (rest_api.py lines 143-167, cli.py lines
379-403): if the current item has a parent, recompute that parent's checked
flag as the AND of its direct children's flags, then recurse upward from the
parent.  The Python version recurses on the parent object; we look the parent
up by id (the `none` branch is unreachable when every parent id resolves,
which is the Existence invariant of the spec). -/
def updateParentCheckedStatus : Nat → Items → Item → Items
  | 0, items, _ => items
  | fuel+1, items, child =>
    match child.parent with
    | none => items
    | some pid =>
      let kids := childItems items pid
      if kids.isEmpty then items
      else
        let allChecked := kids.all (fun it => it.checked)
        let items1 := setChecked items pid allChecked
        match findItem items1 pid with
        | none => items1
        | some p => updateParentCheckedStatus fuel items1 p

/-- `_update_item_checked_with_cascade` (rest_api.py lines 107-127, cli.py
lines 343-363): set the target's checked flag, cascade the same value down to
all children recursively, then recompute ancestors upward from the target. -/
def updateItemCheckedWithCascade (items : Items) (target : Item) (c : Bool) : Items :=
  let items1 := setChecked items target.id c
  let items2 :=
    if c then checkAllChildren (items1.length + 1) items1 target.id
    else uncheckAllChildren (items1.length + 1) items1 target.id
  updateParentCheckedStatus (items2.length + 1) items2 { target with checked := c }

/-- `_delete_item_with_children` (rest_api.py lines 169-188, cli.py lines
405-424): recursively delete all children first, then the target itself.
`item.delete()` marks the backend item deleted; we return the ids in deletion
order.  The child scan runs over the same snapshot list at every level, as in
the Python code. -/
def deleteItemWithChildren : Nat → Items → String → List String
  | 0, _, _ => []
  | fuel+1, items, tid =>
    ((childIds items tid).foldl
      (fun acc cid => acc ++ deleteItemWithChildren fuel items cid) []) ++ [tid]

/-- The list as observed after the marked deletions are dropped. -/
def removeDeleted (items : Items) (deleted : List String) : Items :=
  items.filter (fun it => !(deleted.contains it.id))

/-- Python `s.lower()`, computed on the character list of the string. -/
def lowerChars (s : String) : List Char := s.data.map Char.toLower

/-- Python `s.strip()`: drop whitespace from both ends. -/
def stripChars (l : List Char) : List Char :=
  ((l.dropWhile Char.isWhitespace).reverse.dropWhile Char.isWhitespace).reverse

/-- `_is_null_like` (cli.py lines 13-27): `None`, or a string whose lowercased,
whitespace-stripped form is `"null"`, `"none"`, `"undefined"` or `""`. -/
def isNullLike (value : Option String) : Bool :=
  match value with
  | none => true
  | some s =>
    let t := stripChars (lowerChars s)
    t == "null".data || t == "none".data || t == "undefined".data || t == []

/-- The failure kinds surfaced by the handlers.  `noneAttribute` models a
Python `AttributeError` raised by dereferencing a `None` target. -/
inductive KErr where
  | notFound
  | notAList
  | cannotModify
  | itemNotFound
  | parentNotFound
  | collaboratorNotFound
  | noneAttribute
  deriving Repr, DecidableEq

/-- An operation returns the item list as left in the shared client state
together with the error it raised, if any.  Python raises exceptions out of
handlers that have already mutated the in-memory note; modelling the pair
keeps those partial mutations observable. -/
abbrev OpResult := Items × Option KErr

/-- Item-level body of `add_list_item` (rest_api.py lines 501-518):
`list_obj.add(text, checked)` appends a fresh top-level item (the backend
assigns `newId`); a *truthy* `parent_item_id` (any non-empty string) triggers
the parent lookup and indent; a checked nested add recomputes the parent
chain.  `None` and `""` are falsy in Python and skip the indent block. -/
def addListItem (items : Items) (newId text : String) (checked : Bool)
    (parentItemId : Option String) : OpResult :=
  let items1 := items ++ [Item.mk newId text checked none]
  match parentItemId with
  | none => (items1, none)
  | some pid =>
    if pid == "" then (items1, none)
    else
      match findItem items1 pid with
      | some _ =>
        let items2 := setParent items1 newId (some pid)
        if checked then
          (updateParentCheckedStatus (items2.length + 1) items2
            (Item.mk newId text checked (some pid)), none)
        else (items2, none)
      | none => (items1, some KErr.parentNotFound)

/-- Item-level body of `note_add_list_item` (cli.py lines 246-267): identical
to the REST version except that the indent block is guarded by
`not _is_null_like(parent_item_id)`. -/
def noteAddListItem (items : Items) (newId text : String) (checked : Bool)
    (parentItemId : Option String) : OpResult :=
  let items1 := items ++ [Item.mk newId text checked none]
  match parentItemId with
  | none => (items1, none)
  | some pid =>
    if isNullLike (some pid) then (items1, none)
    else
      match findItem items1 pid with
      | some _ =>
        let items2 := setParent items1 newId (some pid)
        if checked then
          (updateParentCheckedStatus (items2.length + 1) items2
            (Item.mk newId text checked (some pid)), none)
        else (items2, none)
      | none => (items1, some KErr.parentNotFound)

/-- Item-level body of `update_list_item` (rest_api.py lines 559-598): find the
target (correct whole-list scan), update text in place, run the checked
cascade, then handle nesting — only when `parent_item_id is not None`; a
truthy value indents under the (validated) new parent, a falsy (`""`) value
dedents the target if it currently has a parent.  Failures after the text or
checked step leave those mutations in the returned state. -/
def updateListItem (items : Items) (itemId : String) (textU : Option String)
    (checkedU : Option Bool) (parentU : Option String) : OpResult :=
  match findItem items itemId with
  | none => (items, some KErr.itemNotFound)
  | some target =>
    let items1 := match textU with
      | some tx => setTextF items itemId tx
      | none => items
    let target1 := match textU with
      | some tx => { target with text := tx }
      | none => target
    let items2 := match checkedU with
      | some c => updateItemCheckedWithCascade items1 target1 c
      | none => items1
    let target2 := match checkedU with
      | some c => { target1 with checked := c }
      | none => target1
    match parentU with
    | none => (items2, none)
    | some pid =>
      if pid == "" then
        if target2.parent.isSome then (setParent items2 itemId none, none)
        else (items2, none)
      else
        match findItem items2 pid with
        | none => (items2, some KErr.parentNotFound)
        | some _ => (setParent items2 itemId (some pid), none)

/-- Item-level body of `note_update_list_item` (cli.py lines 303-341).  The
`if not target_item: raise` check is mis-indented *inside* the scan loop after
the `break`, so the loop inspects only the first item: a non-matching first
item raises immediately, and an empty list falls through with `target_item =
None` and dies with an `AttributeError` at the first attribute access (or, if
text and checked are both `None` and the parent argument is not null-like,
raises parent-not-found from the empty parent scan first).  Nesting handling
differs from REST: a null-like or *absent* `parent_item_id` dedents the target
if it currently has a parent. -/
def noteUpdateListItem (items : Items) (itemId : String) (textU : Option String)
    (checkedU : Option Bool) (parentU : Option String) : OpResult :=
  match items with
  | [] =>
    match textU, checkedU with
    | some _, _ => (items, some KErr.noneAttribute)
    | none, some _ => (items, some KErr.noneAttribute)
    | none, none =>
      if isNullLike parentU then (items, some KErr.noneAttribute)
      else (items, some KErr.parentNotFound)
  | t :: _ =>
    if t.id == itemId then
      let items1 := match textU with
        | some tx => setTextF items itemId tx
        | none => items
      let target1 := match textU with
        | some tx => { t with text := tx }
        | none => t
      let items2 := match checkedU with
        | some c => updateItemCheckedWithCascade items1 target1 c
        | none => items1
      let target2 := match checkedU with
        | some c => { target1 with checked := c }
        | none => target1
      let dedentStep : OpResult :=
        if target2.parent.isSome then (setParent items2 itemId none, none)
        else (items2, none)
      match parentU with
      | none => dedentStep
      | some pid =>
        if isNullLike (some pid) then dedentStep
        else
          match findItem items2 pid with
          | none => (items2, some KErr.parentNotFound)
          | some _ => (setParent items2 itemId (some pid), none)
    else (items, some KErr.itemNotFound)

/-- Shared tail of `delete_list_item` (rest_api.py lines 643-651) and
`note_delete_list_item` (cli.py lines 463-471): remember the parent object,
cascade-delete the subtree, and recompute the parent chain only when the
deleted item was checked.  The two Python copies are line-for-line twins. -/
def deleteListItemCommon (items : Items) (target : Item) : OpResult :=
  let parentItem := target.parent.bind (findItem items)
  let deleted := deleteItemWithChildren (items.length + 1) items target.id
  let items1 := removeDeleted items deleted
  match parentItem with
  | some p =>
    if target.checked then
      (updateParentCheckedStatus (items1.length + 1) items1 p, none)
    else (items1, none)
  | none => (items1, none)

/-- Item-level body of `delete_list_item` (rest_api.py lines 633-651): correct
whole-list target scan, then the shared deletion tail. -/
def deleteListItem (items : Items) (itemId : String) : OpResult :=
  match findItem items itemId with
  | none => (items, some KErr.itemNotFound)
  | some target => deleteListItemCommon items target

/-- Item-level body of `note_delete_list_item` (cli.py lines 453-471): the
target scan has the same mis-indented not-found check as
`note_update_list_item`, so only the first item is examined; on an empty list
`target_item.parent_item` dereferences `None`. -/
def noteDeleteListItem (items : Items) (itemId : String) : OpResult :=
  match items with
  | [] => (items, some KErr.noneAttribute)
  | t :: _ =>
    if t.id == itemId then deleteListItemCommon items t
    else (items, some KErr.itemNotFound)

/-! ## Note-level layer (keep_api.py and the handler guards) -/

/-- The note metadata the guard logic reads: labels, collaborators, whether the
note has an `items` collection, plus title/text for the note CRUD handlers. -/
structure Note where
  title : Option String
  text : Option String
  labels : List String
  collaborators : List String
  isList : Bool
  items : Items
  deriving Repr, DecidableEq

/-- `has_keep_mcp_label` (keep_api.py lines 94-104). -/
def hasKeepMcpLabel (n : Note) : Bool :=
  n.labels.any (fun l => l == "keep-mcp")

/-- `os.getenv('UNSAFE_MODE', '').lower() == 'true'`; `env` is the raw value of
the `UNSAFE_MODE` environment variable (`none` when unset). -/
def unsafeModeEnabled (env : Option String) : Bool :=
  lowerChars (env.getD "") == "true".data

/-- `can_modify_note` (keep_api.py lines 81-92). -/
def canModifyNote (env : Option String) (n : Note) : Bool :=
  unsafeModeEnabled env || hasKeepMcpLabel n

/-- `can_manage_collaborators` (keep_api.py lines 106-117), textually the same
condition as `can_modify_note`. -/
def canManageCollaborators (env : Option String) (n : Note) : Bool :=
  unsafeModeEnabled env || hasKeepMcpLabel n

/-- `create_note` (cli.py lines 57-83, rest_api.py lines 305-332): creates a
fresh note and attaches the `keep-mcp` label to it; no modification guard is
performed (there is no pre-existing target note to guard). -/
def createNote (_env : Option String) (title text : Option String) : Except KErr Note :=
  Except.ok
    { title := title, text := text, labels := ["keep-mcp"], collaborators := []
      , isList := false, items := [] }

/-- `update_note` (cli.py lines 85-119, rest_api.py lines 334-370): not-found
check, then the `can_modify_note` guard, then in-place title/text update. -/
def updateNote (env : Option String) (note? : Option Note)
    (title text : Option String) : Option Note × Option KErr :=
  match note? with
  | none => (none, some KErr.notFound)
  | some n =>
    if !(canModifyNote env n) then (some n, some KErr.cannotModify)
    else
      let n1 := match title with | some t => { n with title := some t } | none => n
      let n2 := match text with | some tx => { n1 with text := some tx } | none => n1
      (some n2, none)

/-- `delete_note` (cli.py lines 187-212, rest_api.py lines 372-403): not-found
check, `can_modify_note` guard, then the deletion mark. -/
def deleteNote (env : Option String) (note? : Option Note) : Option KErr :=
  match note? with
  | none => some KErr.notFound
  | some n => if !(canModifyNote env n) then some KErr.cannotModify else none

/-- `get_note` (rest_api.py lines 281-303): read-only, no modification guard. -/
def getNote (note? : Option Note) : Except KErr Note :=
  match note? with
  | none => Except.error KErr.notFound
  | some n => Except.ok n

/-- Python `needle in hay` on lowered strings. -/
def containsSub (hay needle : List Char) : Bool :=
  decide (needle <:+: hay)

/-- `find_note` / `search_notes` (cli.py lines 29-55, rest_api.py lines
238-267): case-insensitive substring match on title and text; read-only, no
modification guard. -/
def findNote (notes : List Note) (query : String) : List Note :=
  if query == "" then notes
  else
    notes.filter (fun n =>
      containsSub (lowerChars (n.title.getD "")) (lowerChars query)
      || containsSub (lowerChars (n.text.getD "")) (lowerChars query))

/-- `share_note` (keep_api.py lines 119-153): not-found check, the
`can_manage_collaborators` guard, then the collaborator add. -/
def shareNote (env : Option String) (note? : Option Note) (email : String) :
    Option Note × Option KErr :=
  match note? with
  | none => (none, some KErr.notFound)
  | some n =>
    if !(canManageCollaborators env n) then (some n, some KErr.cannotModify)
    else (some { n with collaborators := n.collaborators ++ [email] }, none)

/-- `unshare_note` (keep_api.py lines 155-192): not-found check, the guard,
the collaborator-exists check, then the removal. -/
def unshareNote (env : Option String) (note? : Option Note) (email : String) :
    Option Note × Option KErr :=
  match note? with
  | none => (none, some KErr.notFound)
  | some n =>
    if !(canManageCollaborators env n) then (some n, some KErr.cannotModify)
    else if !(n.collaborators.contains email) then
      (some n, some KErr.collaboratorNotFound)
    else (some { n with collaborators := n.collaborators.filter (fun e => !(e == email)) }, none)

/-- Guard layer of `add_list_item` (rest_api.py lines 486-499): not-found,
not-a-list, `can_modify_note`, then the item-level body. -/
def addListItemHandler (env : Option String) (note? : Option Note)
    (newId text : String) (checked : Bool) (parentItemId : Option String) :
    Option Note × Option KErr :=
  match note? with
  | none => (none, some KErr.notFound)
  | some n =>
    if !n.isList then (some n, some KErr.notAList)
    else if !(canModifyNote env n) then (some n, some KErr.cannotModify)
    else
      let r := addListItem n.items newId text checked parentItemId
      (some { n with items := r.1 }, r.2)

/-- Guard layer of `note_add_list_item` (cli.py lines 234-245). -/
def noteAddListItemHandler (env : Option String) (note? : Option Note)
    (newId text : String) (checked : Bool) (parentItemId : Option String) :
    Option Note × Option KErr :=
  match note? with
  | none => (none, some KErr.notFound)
  | some n =>
    if !n.isList then (some n, some KErr.notAList)
    else if !(canModifyNote env n) then (some n, some KErr.cannotModify)
    else
      let r := noteAddListItem n.items newId text checked parentItemId
      (some { n with items := r.1 }, r.2)

/-- Guard layer of `update_list_item` (rest_api.py lines 543-558). -/
def updateListItemHandler (env : Option String) (note? : Option Note)
    (itemId : String) (textU : Option String) (checkedU : Option Bool)
    (parentU : Option String) : Option Note × Option KErr :=
  match note? with
  | none => (none, some KErr.notFound)
  | some n =>
    if !n.isList then (some n, some KErr.notAList)
    else if !(canModifyNote env n) then (some n, some KErr.cannotModify)
    else
      let r := updateListItem n.items itemId textU checkedU parentU
      (some { n with items := r.1 }, r.2)

/-- Guard layer of `delete_list_item` (rest_api.py lines 617-631). -/
def deleteListItemHandler (env : Option String) (note? : Option Note)
    (itemId : String) : Option Note × Option KErr :=
  match note? with
  | none => (none, some KErr.notFound)
  | some n =>
    if !n.isList then (some n, some KErr.notAList)
    else if !(canModifyNote env n) then (some n, some KErr.cannotModify)
    else
      let r := deleteListItem n.items itemId
      (some { n with items := r.1 }, r.2)

/-! ## Derived tree notions: ancestor chains, descendants, invariants -/

/-- The ancestor id chain obtained by following `parent` references upward,
from the immediate parent outward; `none` when `fuel` lookups did not suffice
(which on a well-formed list means a parent cycle).  A dangling parent id ends
the chain, mirroring the spec's Tree Store contract. -/
def ancIds (items : Items) : Nat → Option String → Option (List String)
  | _, none => some []
  | 0, some _ => none
  | fuel+1, some pid =>
    match findItem items pid with
    | none => some [pid]
    | some w => (ancIds items fuel w.parent).map (fun l => pid :: l)

/-- The ancestor chain of an item, with the canonical fuel `items.length + 1`
(enough on every acyclic list). -/
def ancestorIds (items : Items) (z : Item) : List String :=
  (ancIds items (items.length + 1) z.parent).getD []

/-- `z` lies strictly below the item with id `aid`. -/
def isDescendantOf (items : Items) (z : Item) (aid : String) : Bool :=
  (ancestorIds items z).contains aid

/-- Descendants of `pid` reached by at most `fuel` downward child steps,
following the same child-scan recursion as the cascade helpers. -/
def descendantWithin (items : Items) : Nat → String → String → Bool
  | 0, _, _ => false
  | fuel+1, pid, z =>
    (childIds items pid).any (fun cid => cid == z || descendantWithin items fuel cid z)

/-- Every non-null parent reference resolves to an item of the list
(spec invariant 2, Existence). -/
def parentsResolveB (items : Items) : Bool :=
  items.all (fun z =>
    match z.parent with
    | none => true
    | some pid => (findItem items pid).isSome)

/-- Every ancestor chain terminates within `items.length + 1` steps
(spec invariant 1, Acyclicity, with the defensive bound of §4.1). -/
def acyclicB (items : Items) : Bool :=
  items.all (fun z => (ancIds items (items.length + 1) z.parent).isSome)

/-- Well-formed list: unique ids, resolving parents, terminating chains. -/
def WellFormed (items : Items) : Prop :=
  (items.map Item.id).Nodup ∧ parentsResolveB items = true ∧ acyclicB items = true

instance : DecidablePred WellFormed := fun items =>
  inferInstanceAs (Decidable (_ ∧ _ ∧ _))

/-- Checked-consistency at one item (spec invariant 3): an item with at least
one child is checked exactly when all direct children are checked. -/
def consistentAtB (items : Items) (z : Item) : Bool :=
  let kids := childItems items z.id
  kids.isEmpty || (z.checked == kids.all (fun it => it.checked))

/-- Checked-consistency of the whole list. -/
def consistentB (items : Items) : Bool :=
  items.all (consistentAtB items)

/-- Skeleton of the list: ids and parent references only.  Operations that only
toggle `checked`/`text` fields preserve it. -/
def skel (items : Items) : List (String × Option String) :=
  items.map (fun it => (it.id, it.parent))

/-- Setting `checked := c` on every item selected by `sel` — the combined
effect of a batch of `setChecked` calls that all write the same constant. -/
def setCheckedOn (items : Items) (sel : String → Bool) (c : Bool) : Items :=
  items.map (fun it => if sel it.id then { it with checked := c } else it)

/-- Checked-consistency everywhere except (possibly) at the listed ids. -/
def ConsistentExcept (items : Items) (E : List String) : Prop :=
  ∀ z ∈ items, z.id ∉ E → consistentAtB items z = true

/-- Every item that has `tid` strictly above it sits at chain distance at most
`F - 2` from it (so the subtree below `tid` has depth less than `F`). -/
def DepthBounded (items : Items) (F : Nat) (tid : String) : Prop :=
  ∀ z ∈ items, ∀ l1 l2, ancestorIds items z = l1 ++ tid :: l2 → l1.length + 2 ≤ F

/-- Every prefix of `l` is closed under taking children, allowing children to
also sit in the fixed prefix `base` (deleted-before-this-sublist ids). -/
def TakeClosedRel (items : Items) (base l : List String) : Prop :=
  ∀ k q, q ∈ l.take k → ∀ z ∈ items, z.parent = some q → z.id ∈ base ++ l.take k

/-- Every member's children (in `items`) lie in `base ++ l`. -/
def ChildClosedRel (items : Items) (base l : List String) : Prop :=
  ∀ q ∈ l, ∀ z ∈ items, z.parent = some q → z.id ∈ base ++ l

/-- Number of ancestor levels the upward recompute actually walks
(the recursion of `_update_parent_checked_status`, counting recomputed
parents). -/
def upwardLevels : Nat → Items → Item → Nat
  | 0, _, _ => 0
  | fuel+1, items, child =>
    match child.parent with
    | none => 0
    | some pid =>
      let kids := childItems items pid
      if kids.isEmpty then 0
      else
        let allChecked := kids.all (fun it => it.checked)
        let items1 := setChecked items pid allChecked
        match findItem items1 pid with
        | none => 1
        | some p => 1 + upwardLevels fuel items1 p

/-! ## Basic lemmas -/

theorem findItem_map (g : Item → Item) (hg : ∀ x, (g x).id = x.id)
    (items : Items) (i : String) :
    findItem (items.map g) i = (findItem items i).map g := by
  induction items with
  | nil => rfl
  | cons x xs ih =>
    simp only [findItem, List.map_cons, List.find?] at *
    rw [hg x]
    cases h : (x.id == i) with
    | true => rfl
    | false => exact ih

theorem findItem_id_of_eq {items : Items} {i : String} {a : Item}
    (h : findItem items i = some a) : a.id = i := by
  have := List.find?_some h
  simpa using this

theorem findItem_mem {items : Items} {i : String} {a : Item}
    (h : findItem items i = some a) : a ∈ items :=
  List.mem_of_find?_eq_some h

theorem setChecked_id_pres (i : String) (c : Bool) (x : Item) :
    ((fun it => if it.id == i then { it with checked := c } else it) x).id = x.id := by
  by_cases h : x.id = i <;> simp [h]

theorem setParent_id_pres (i : String) (p : Option String) (x : Item) :
    ((fun it => if it.id == i then { it with parent := p } else it) x).id = x.id := by
  by_cases h : x.id = i <;> simp [h]

theorem setTextF_id_pres (i : String) (tx : String) (x : Item) :
    ((fun it => if it.id == i then { it with text := tx } else it) x).id = x.id := by
  by_cases h : x.id = i <;> simp [h]

theorem skel_setChecked (items : Items) (i : String) (c : Bool) :
    skel (setChecked items i c) = skel items := by
  simp only [skel, setChecked, List.map_map]
  apply List.map_congr_left
  intro x _
  by_cases h : x.id = i <;> simp [h]

theorem skel_setTextF (items : Items) (i : String) (tx : String) :
    skel (setTextF items i tx) = skel items := by
  simp only [skel, setTextF, List.map_map]
  apply List.map_congr_left
  intro x _
  by_cases h : x.id = i <;> simp [h]

theorem childItems_congr {xs ys : Items} (h : skel ys = skel xs) (pid : String) :
    (childItems ys pid).map (fun it => (it.id, it.parent))
      = (childItems xs pid).map (fun it => (it.id, it.parent)) := by
  have key : ∀ zs : Items,
      (childItems zs pid).map (fun it => (it.id, it.parent))
        = (skel zs).filter (fun pr => pr.2 == some pid) :=
    fun zs => (List.filter_map (p := fun pr : String × Option String => pr.2 == some pid)
      (fun it : Item => (it.id, it.parent)) zs).symm
  rw [key, key, h]

theorem childIds_congr {xs ys : Items} (h : skel ys = skel xs) (pid : String) :
    childIds ys pid = childIds xs pid := by
  have h1 : ∀ zs : Items, childIds zs pid
      = ((childItems zs pid).map (fun it => (it.id, it.parent))).map Prod.fst := by
    intro zs; simp [childIds, List.map_map]
  rw [h1, h1, childItems_congr h]

theorem findItem_skel_congr {xs ys : Items} (h : skel ys = skel xs) (i : String) :
    (findItem ys i).map (fun it => (it.id, it.parent))
      = (findItem xs i).map (fun it => (it.id, it.parent)) := by
  have key : ∀ zs : Items,
      (findItem zs i).map (fun it => (it.id, it.parent))
        = (skel zs).find? (fun pr => pr.1 == i) :=
    fun zs => (List.find?_map (p := fun pr : String × Option String => pr.1 == i)
      (fun it : Item => (it.id, it.parent)) zs).symm
  rw [key, key, h]

theorem skel_length {xs ys : Items} (h : skel ys = skel xs) : ys.length = xs.length := by
  have := congrArg List.length h
  simpa [skel] using this

theorem skel_foldl {α : Type} (step : Items → α → Items)
    (hstep : ∀ acc x, skel (step acc x) = skel acc) (l : List α) (init : Items) :
    skel (l.foldl step init) = skel init := by
  induction l generalizing init with
  | nil => rfl
  | cons x xs ih => rw [List.foldl_cons, ih, hstep]

theorem skel_cascadeChildren (fuel : Nat) (items : Items) (pid : String) (c : Bool) :
    skel (cascadeChildren fuel items pid c) = skel items := by
  induction fuel generalizing items pid with
  | zero => rfl
  | succ fuel ih =>
    rw [cascadeChildren]
    rw [skel_foldl]
    intro acc cid
    rw [ih, skel_setChecked]

theorem skel_updateParentCheckedStatus (fuel : Nat) (items : Items) (child : Item) :
    skel (updateParentCheckedStatus fuel items child) = skel items := by
  induction fuel generalizing items child with
  | zero => rfl
  | succ fuel ih =>
    rw [updateParentCheckedStatus]
    cases hp : child.parent with
    | none => rfl
    | some pid =>
      simp only
      by_cases hk : (childItems items pid).isEmpty
      · simp [hk]
      · simp only [hk, Bool.false_eq_true, if_false]
        cases hf : findItem (setChecked items pid
            ((childItems items pid).all (fun it => it.checked))) pid with
        | none => simp [hf, skel_setChecked]
        | some p => simp [hf, ih, skel_setChecked]

theorem skel_updateItemCheckedWithCascade (items : Items) (target : Item) (c : Bool) :
    skel (updateItemCheckedWithCascade items target c) = skel items := by
  simp only [updateItemCheckedWithCascade]
  cases c with
  | true =>
    simp only [if_true, checkAllChildren]
    rw [skel_updateParentCheckedStatus, skel_cascadeChildren, skel_setChecked]
  | false =>
    simp only [Bool.false_eq_true, if_false, uncheckAllChildren]
    rw [skel_updateParentCheckedStatus, skel_cascadeChildren, skel_setChecked]

theorem findItem_setParent_self {items : Items} {i : String} {p : Option String}
    (h : (findItem items i).isSome = true) :
    (findItem (setParent items i p) i).map Item.parent = some p := by
  simp only [setParent]
  rw [findItem_map _ (setParent_id_pres i p)]
  cases hf : findItem items i with
  | none => rw [hf] at h; simp at h
  | some a =>
    have ha : a.id = i := findItem_id_of_eq hf
    simp [ha]

theorem findItem_isSome_congr {xs ys : Items} (h : skel ys = skel xs) (i : String) :
    (findItem ys i).isSome = (findItem xs i).isSome := by
  have := congrArg Option.isSome (findItem_skel_congr h i)
  simpa using this

theorem addListItem_ne_cannotModify (items : Items) (newId text : String)
    (checked : Bool) (pv : Option String) :
    (addListItem items newId text checked pv).2 ≠ some KErr.cannotModify := by
  simp only [addListItem]
  repeat' split
  all_goals simp

theorem noteAddListItem_ne_cannotModify (items : Items) (newId text : String)
    (checked : Bool) (pv : Option String) :
    (noteAddListItem items newId text checked pv).2 ≠ some KErr.cannotModify := by
  simp only [noteAddListItem]
  repeat' split
  all_goals simp

theorem updateListItem_ne_cannotModify (items : Items) (itemId : String)
    (tU : Option String) (cU : Option Bool) (pU : Option String) :
    (updateListItem items itemId tU cU pU).2 ≠ some KErr.cannotModify := by
  simp only [updateListItem]
  repeat' split
  all_goals simp

theorem noteUpdateListItem_ne_cannotModify (items : Items) (itemId : String)
    (tU : Option String) (cU : Option Bool) (pU : Option String) :
    (noteUpdateListItem items itemId tU cU pU).2 ≠ some KErr.cannotModify := by
  simp only [noteUpdateListItem]
  repeat' split
  all_goals simp

theorem deleteListItemCommon_ne_cannotModify (items : Items) (target : Item) :
    (deleteListItemCommon items target).2 ≠ some KErr.cannotModify := by
  simp only [deleteListItemCommon]
  repeat' split
  all_goals simp

theorem deleteListItem_ne_cannotModify (items : Items) (itemId : String) :
    (deleteListItem items itemId).2 ≠ some KErr.cannotModify := by
  simp only [deleteListItem]
  split
  · simp
  · exact deleteListItemCommon_ne_cannotModify _ _

/-! ## Ancestor-chain toolkit -/

theorem ancIds_none (items : Items) (f : Nat) : ancIds items f none = some [] := by
  cases f <;> rfl

theorem ancIds_zero_some (items : Items) (pid : String) :
    ancIds items 0 (some pid) = none := rfl

theorem ancIds_some_none (items : Items) (f : Nat) (pid : String)
    (h : findItem items pid = none) :
    ancIds items (f + 1) (some pid) = some [pid] := by
  simp [ancIds, h]

theorem ancIds_some_some (items : Items) (f : Nat) (pid : String) (w : Item)
    (h : findItem items pid = some w) :
    ancIds items (f + 1) (some pid) = (ancIds items f w.parent).map (fun l => pid :: l) := by
  simp [ancIds, h]

theorem ancIds_succ {items : Items} :
    ∀ {f : Nat} {o : Option String} {L : List String},
      ancIds items f o = some L → ancIds items (f + 1) o = some L := by
  intro f
  induction f with
  | zero =>
    intro o L h
    cases o with
    | none => rw [ancIds_none] at h ⊢; exact h
    | some pid => rw [ancIds_zero_some] at h; cases h
  | succ f ih =>
    intro o L h
    cases o with
    | none => rw [ancIds_none] at h ⊢; exact h
    | some pid =>
      cases hf : findItem items pid with
      | none =>
        rw [ancIds_some_none _ _ _ hf] at h ⊢
        exact h
      | some w =>
        rw [ancIds_some_some _ _ _ _ hf] at h ⊢
        cases hM : ancIds items f w.parent with
        | none => rw [hM] at h; simp at h
        | some M =>
          rw [hM] at h
          rw [ih hM]
          exact h

theorem ancIds_le {items : Items} {f g : Nat} {o : Option String} {L : List String}
    (hfg : f ≤ g) (h : ancIds items f o = some L) : ancIds items g o = some L := by
  induction g with
  | zero =>
    have hf0 : f = 0 := Nat.le_zero.mp hfg
    subst hf0; exact h
  | succ g ih =>
    rcases Nat.lt_or_ge f (g + 1) with hlt | hge
    · exact ancIds_succ (ih (Nat.lt_succ_iff.mp hlt))
    · have hfe : f = g + 1 := Nat.le_antisymm hfg hge
      subst hfe; exact h

theorem ancIds_unique {items : Items} {f g : Nat} {o : Option String} {L M : List String}
    (hL : ancIds items f o = some L) (hM : ancIds items g o = some M) : L = M := by
  rcases Nat.le_total f g with h | h
  · have h2 := ancIds_le h hL
    rw [h2] at hM
    exact Option.some.inj hM
  · have h2 := ancIds_le h hM
    rw [h2] at hL
    exact (Option.some.inj hL).symm

theorem ancIds_head {items : Items} {f : Nat} {pid : String} {L : List String}
    (h : ancIds items f (some pid) = some L) : ∃ rest, L = pid :: rest := by
  cases f with
  | zero => rw [ancIds_zero_some] at h; cases h
  | succ f =>
    cases hf : findItem items pid with
    | none =>
      rw [ancIds_some_none _ _ _ hf] at h
      exact ⟨[], (Option.some.inj h).symm⟩
    | some w =>
      rw [ancIds_some_some _ _ _ _ hf] at h
      cases hM : ancIds items f w.parent with
      | none => rw [hM] at h; simp at h
      | some M =>
        rw [hM] at h
        simp only [Option.map_some'] at h
        exact ⟨M, (Option.some.inj h).symm⟩

theorem ancIds_cons_elim {items : Items} {g : Nat} {q : String} {l2 : List String}
    (h : ancIds items g (some q) = some (q :: l2)) :
    (findItem items q = none ∧ l2 = []) ∨
    ∃ w g', findItem items q = some w ∧ ancIds items g' w.parent = some l2 := by
  cases g with
  | zero => rw [ancIds_zero_some] at h; cases h
  | succ g =>
    cases hf : findItem items q with
    | none =>
      rw [ancIds_some_none _ _ _ hf] at h
      left
      have h2 := Option.some.inj h
      exact ⟨rfl, by simpa using h2.symm⟩
    | some w =>
      rw [ancIds_some_some _ _ _ _ hf] at h
      cases hM : ancIds items g w.parent with
      | none => rw [hM] at h; simp at h
      | some M =>
        rw [hM] at h
        simp only [Option.map_some'] at h
        have hM2 : M = l2 := by simpa using Option.some.inj h
        exact Or.inr ⟨w, g, rfl, hM2 ▸ hM⟩

theorem ancIds_suffix {items : Items} :
    ∀ (l1 : List String) {f : Nat} {o : Option String} {q : String} {l2 : List String},
      ancIds items f o = some (l1 ++ q :: l2) →
      ∃ g, ancIds items g (some q) = some (q :: l2) := by
  intro l1
  induction l1 with
  | nil =>
    intro f o q l2 h
    cases o with
    | none => rw [ancIds_none] at h; simp at h
    | some pid =>
      obtain ⟨rest, hr⟩ := ancIds_head h
      simp only [List.nil_append] at h hr
      have hpq : pid = q := by injection hr with h1 h2; exact h1.symm
      exact ⟨f, hpq ▸ h⟩
  | cons a l1' ih =>
    intro f o q l2 h
    cases o with
    | none => rw [ancIds_none] at h; simp at h
    | some pid =>
      obtain ⟨rest, hr⟩ := ancIds_head h
      simp only [List.cons_append] at h hr
      have hpa : pid = a := by injection hr with h1 h2; exact h1.symm
      subst hpa
      rcases ancIds_cons_elim h with ⟨-, habs⟩ | ⟨w, g', -, hw⟩
      · simp at habs
      · exact ih hw

theorem findItem_eq_self {items : Items} (hnd : (items.map Item.id).Nodup)
    {z : Item} (hz : z ∈ items) : findItem items z.id = some z := by
  induction items with
  | nil => cases hz
  | cons x xs ih =>
    rcases List.mem_cons.mp hz with rfl | hz'
    · simp [findItem, List.find?]
    · have hx : x.id ∉ xs.map Item.id := (List.nodup_cons.mp hnd).1
      have hnd' : (xs.map Item.id).Nodup := (List.nodup_cons.mp hnd).2
      have hne : (x.id == z.id) = false := by
        rw [beq_eq_false_iff_ne]
        intro he
        exact hx (he ▸ List.mem_map_of_mem Item.id hz')
      simp only [findItem, List.find?, hne]
      simpa [findItem] using ih hnd' hz'

theorem eq_of_mem_id {items : Items} (hnd : (items.map Item.id).Nodup)
    {w z : Item} (hw : w ∈ items) (hz : z ∈ items) (hid : w.id = z.id) : w = z := by
  have h1 := findItem_eq_self hnd hw
  have h2 := findItem_eq_self hnd hz
  rw [hid, h2] at h1
  exact (Option.some.inj h1).symm

theorem no_self_ancestor {items : Items} (hnd : (items.map Item.id).Nodup)
    {z : Item} (hz : z ∈ items) {f : Nat} {L : List String}
    (h : ancIds items f z.parent = some L) : z.id ∉ L := by
  intro hmem
  obtain ⟨l1, l2, rfl⟩ := List.append_of_mem hmem
  obtain ⟨g, hg⟩ := ancIds_suffix l1 h
  rcases ancIds_cons_elim hg with ⟨hfn, -⟩ | ⟨w, g', hfw, hw⟩
  · rw [findItem_eq_self hnd hz] at hfn; cases hfn
  · rw [findItem_eq_self hnd hz] at hfw
    have hwz : z = w := Option.some.inj hfw
    subst hwz
    have hlen := congrArg List.length (ancIds_unique h hw)
    simp at hlen
    omega

theorem ancIds_nodup {items : Items} (hnd : (items.map Item.id).Nodup) :
    ∀ {f : Nat} {o : Option String} {L : List String},
      ancIds items f o = some L → L.Nodup := by
  intro f
  induction f with
  | zero =>
    intro o L h
    cases o with
    | none =>
      have hL : L = [] := by rw [ancIds_none] at h; exact (Option.some.inj h).symm
      simp [hL]
    | some pid => rw [ancIds_zero_some] at h; cases h
  | succ f ih =>
    intro o L h
    cases o with
    | none =>
      have hL : L = [] := by rw [ancIds_none] at h; exact (Option.some.inj h).symm
      simp [hL]
    | some pid =>
      cases hf : findItem items pid with
      | none =>
        rw [ancIds_some_none _ _ _ hf] at h
        have hL : L = [pid] := (Option.some.inj h).symm
        simp [hL]
      | some w =>
        rw [ancIds_some_some _ _ _ _ hf] at h
        cases hM : ancIds items f w.parent with
        | none => rw [hM] at h; simp at h
        | some M =>
          rw [hM] at h
          simp only [Option.map_some'] at h
          have hL : L = pid :: M := (Option.some.inj h).symm
          subst hL
          refine List.nodup_cons.mpr ⟨?_, ih hM⟩
          intro hin
          have hwid : w.id = pid := findItem_id_of_eq hf
          exact no_self_ancestor hnd (findItem_mem hf) hM (hwid ▸ hin)

theorem ancIds_elems {items : Items} (hpr : parentsResolveB items = true) :
    ∀ {f : Nat} {z : Item}, z ∈ items →
      ∀ {L : List String}, ancIds items f z.parent = some L →
      ∀ q ∈ L, ∃ w ∈ items, w.id = q := by
  intro f
  induction f with
  | zero =>
    intro z hz L h q hq
    cases hp : z.parent with
    | none =>
      rw [hp] at h
      have hL : L = [] := by rw [ancIds_none] at h; exact (Option.some.inj h).symm
      subst hL; cases hq
    | some pid => rw [hp, ancIds_zero_some] at h; cases h
  | succ f ih =>
    intro z hz L h q hq
    cases hp : z.parent with
    | none =>
      rw [hp] at h
      have hL : L = [] := by rw [ancIds_none] at h; exact (Option.some.inj h).symm
      subst hL; cases hq
    | some pid =>
      rw [hp] at h
      have hres : (findItem items pid).isSome = true := by
        have hall := (List.all_eq_true.mp hpr) z hz
        rw [hp] at hall
        simpa using hall
      obtain ⟨w, hf⟩ := Option.isSome_iff_exists.mp hres
      rw [ancIds_some_some _ _ _ _ hf] at h
      cases hM : ancIds items f w.parent with
      | none => rw [hM] at h; simp at h
      | some M =>
        rw [hM] at h
        simp only [Option.map_some'] at h
        have hL : L = pid :: M := (Option.some.inj h).symm
        subst hL
        rcases List.mem_cons.mp hq with rfl | hqM
        · exact ⟨w, findItem_mem hf, findItem_id_of_eq hf⟩
        · exact ih (findItem_mem hf) hM q hqM

theorem ancIds_length_le {items : Items} (hnd : (items.map Item.id).Nodup)
    (hpr : parentsResolveB items = true) {z : Item} (hz : z ∈ items)
    {f : Nat} {L : List String} (h : ancIds items f z.parent = some L) :
    L.length ≤ items.length := by
  have hnodupL := ancIds_nodup hnd h
  have hsub : L ⊆ items.map Item.id := by
    intro q hq
    obtain ⟨w, hw, hwid⟩ := ancIds_elems hpr hz h q hq
    exact hwid ▸ List.mem_map_of_mem Item.id hw
  have hle := (List.subperm_of_subset hnodupL hsub).length_le
  simpa using hle

theorem wf_find_parent {items : Items} (h : WellFormed items) {z : Item} (hz : z ∈ items)
    {pid : String} (hp : z.parent = some pid) : ∃ w, findItem items pid = some w := by
  have hall := (List.all_eq_true.mp h.2.1) z hz
  rw [hp] at hall
  exact Option.isSome_iff_exists.mp (by simpa using hall)

theorem wf_chain {items : Items} (h : WellFormed items) {z : Item} (hz : z ∈ items) :
    ancIds items (items.length + 1) z.parent = some (ancestorIds items z) := by
  have hall := (List.all_eq_true.mp h.2.2) z hz
  obtain ⟨L, hL⟩ := Option.isSome_iff_exists.mp (by simpa using hall)
  rw [ancestorIds, hL]
  rfl

theorem ancestorIds_length_le {items : Items} (h : WellFormed items) {z : Item}
    (hz : z ∈ items) : (ancestorIds items z).length ≤ items.length :=
  ancIds_length_le h.1 h.2.1 hz (wf_chain h hz)

/-! ## Descendants vs ancestor chains -/

theorem descendantWithin_zero (items : Items) (pid z : String) :
    descendantWithin items 0 pid z = false := rfl

theorem descendantWithin_succ (items : Items) (F : Nat) (pid z : String) :
    descendantWithin items (F + 1) pid z
      = (childIds items pid).any (fun cid => cid == z || descendantWithin items F cid z) := rfl

theorem childIds_mem {items : Items} {pid cid : String} :
    cid ∈ childIds items pid ↔ ∃ w ∈ items, w.id = cid ∧ w.parent = some pid := by
  constructor
  · intro h
    simp only [childIds, childItems, List.mem_map, List.mem_filter] at h
    obtain ⟨w, ⟨hw, hp⟩, hid⟩ := h
    exact ⟨w, hw, hid, by simpa using hp⟩
  · rintro ⟨w, hw, hid, hp⟩
    simp only [childIds, childItems, List.mem_map, List.mem_filter]
    exact ⟨w, ⟨hw, by simp [hp]⟩, hid⟩

theorem descendantWithin_mono {items : Items} :
    ∀ {F G : Nat} {pid z : String}, F ≤ G → descendantWithin items F pid z = true →
      descendantWithin items G pid z = true := by
  intro F
  induction F with
  | zero => intro G pid z _ h; rw [descendantWithin_zero] at h; cases h
  | succ F ih =>
    intro G pid z hFG h
    obtain ⟨G', rfl⟩ : ∃ G', G = G' + 1 := by
      cases G with
      | zero => omega
      | succ G' => exact ⟨G', rfl⟩
    rw [descendantWithin_succ] at h
    rw [descendantWithin_succ]
    obtain ⟨cid, hcid, hor⟩ := List.any_eq_true.mp h
    apply List.any_eq_true.mpr
    refine ⟨cid, hcid, ?_⟩
    rcases Bool.or_eq_true_iff.mp hor with heq | hdw
    · exact Bool.or_eq_true_iff.mpr (Or.inl heq)
    · exact Bool.or_eq_true_iff.mpr (Or.inr (ih (by omega) hdw))

theorem descendantWithin_of_child {items : Items} {z : Item} (hz : z ∈ items)
    {tid : String} (hp : z.parent = some tid) (F : Nat) :
    descendantWithin items (F + 1) tid z.id = true := by
  rw [descendantWithin_succ]
  apply List.any_eq_true.mpr
  refine ⟨z.id, childIds_mem.mpr ⟨z, hz, rfl, hp⟩, ?_⟩
  simp

theorem descendantWithin_child_step {items : Items} :
    ∀ {F : Nat} {tid q : String}, descendantWithin items F tid q = true →
      ∀ {z : Item}, z ∈ items → z.parent = some q →
      descendantWithin items (F + 1) tid z.id = true := by
  intro F
  induction F with
  | zero => intro tid q h; rw [descendantWithin_zero] at h; cases h
  | succ F ih =>
    intro tid q h z hz hp
    rw [descendantWithin_succ] at h
    obtain ⟨cid, hcid, hor⟩ := List.any_eq_true.mp h
    rw [descendantWithin_succ]
    apply List.any_eq_true.mpr
    refine ⟨cid, hcid, ?_⟩
    rcases Bool.or_eq_true_iff.mp hor with heq | hdw
    · have hcq : cid = q := by simpa using heq
      subst hcq
      apply Bool.or_eq_true_iff.mpr
      right
      exact descendantWithin_of_child hz hp F
    · exact Bool.or_eq_true_iff.mpr (Or.inr (ih hdw hz hp))

theorem ancestor_trans {items : Items} (hwf : WellFormed items) {z : Item} (hz : z ∈ items)
    {q : String} (hq : q ∈ ancestorIds items z) {w : Item} (hfw : findItem items q = some w)
    {r : String} (hr : r ∈ ancestorIds items w) : r ∈ ancestorIds items z := by
  obtain ⟨l1, l2, hsplit⟩ := List.append_of_mem hq
  have hch := wf_chain hwf hz
  rw [hsplit] at hch
  obtain ⟨g, hg⟩ := ancIds_suffix l1 hch
  rcases ancIds_cons_elim hg with ⟨hfn, -⟩ | ⟨w', g', hfw', hw'⟩
  · rw [hfw] at hfn; cases hfn
  · rw [hfw] at hfw'
    cases Option.some.inj hfw'
    have hwmem : w ∈ items := findItem_mem hfw
    have hl2 : ancestorIds items w = l2 := ancIds_unique (wf_chain hwf hwmem) hw'
    rw [hsplit]
    exact List.mem_append_right _ (List.mem_cons_of_mem _ (hl2 ▸ hr))

theorem ancestor_step {items : Items} (hwf : WellFormed items) {z : Item} (hz : z ∈ items)
    {q : String} (hq : q ∈ ancestorIds items z) {w : Item}
    (hfw : findItem items q = some w) {p : String} (hp : w.parent = some p) :
    p ∈ ancestorIds items z := by
  have hwmem : w ∈ items := findItem_mem hfw
  have hchw := wf_chain hwf hwmem
  rw [hp] at hchw
  obtain ⟨rest, hr⟩ := ancIds_head hchw
  refine ancestor_trans hwf hz hq hfw ?_
  rw [hr]
  simp

theorem not_mem_chain_self {items : Items} (hwf : WellFormed items) {z : Item}
    (hz : z ∈ items) : z.id ∉ ancestorIds items z :=
  no_self_ancestor hwf.1 hz (wf_chain hwf hz)

theorem chain_asymm {items : Items} (hwf : WellFormed items) {z w : Item}
    (hz : z ∈ items) (hw : w ∈ items) (h1 : w.id ∈ ancestorIds items z)
    (h2 : z.id ∈ ancestorIds items w) : False := by
  have hfz : findItem items z.id = some z := findItem_eq_self hwf.1 hz
  have : w.id ∈ ancestorIds items w := ancestor_trans hwf hw h2 hfz h1
  exact not_mem_chain_self hwf hw this

theorem chain_of_descWithin {items : Items} (hwf : WellFormed items) :
    ∀ {F : Nat} {tid : String} {z : Item}, z ∈ items →
      descendantWithin items F tid z.id = true → tid ∈ ancestorIds items z := by
  intro F
  induction F with
  | zero => intro tid z _ h; rw [descendantWithin_zero] at h; cases h
  | succ F ih =>
    intro tid z hz h
    rw [descendantWithin_succ] at h
    obtain ⟨cid, hcid, hor⟩ := List.any_eq_true.mp h
    obtain ⟨w, hw, hwid, hwp⟩ := childIds_mem.mp hcid
    rcases Bool.or_eq_true_iff.mp hor with heq | hdw
    · have hcz : cid = z.id := by simpa using heq
      subst hcz
      have hwz : w = z := eq_of_mem_id hwf.1 hw hz hwid
      subst hwz
      have hch := wf_chain hwf hw
      rw [hwp] at hch
      obtain ⟨rest, hr⟩ := ancIds_head hch
      have : ancestorIds items w = tid :: rest := by
        have := ancIds_unique (wf_chain hwf hw) (hwp ▸ hch)
        rw [this, hr]
      rw [this]
      simp
    · have hq : cid ∈ ancestorIds items z := ih hz hdw
      have hfcid : findItem items cid = some w := by
        have := findItem_eq_self hwf.1 hw
        rwa [hwid] at this
      exact ancestor_step hwf hz hq hfcid hwp

theorem descWithin_of_chain_split {items : Items} (hwf : WellFormed items) :
    ∀ (l1 : List String) {z : Item}, z ∈ items →
      ∀ {tid : String} {l2 : List String}, ancestorIds items z = l1 ++ tid :: l2 →
      descendantWithin items (l1.length + 1) tid z.id = true := by
  intro l1
  induction l1 with
  | nil =>
    intro z hz tid l2 hsplit
    have hch := wf_chain hwf hz
    rw [hsplit] at hch
    cases hzp : z.parent with
    | none =>
      rw [hzp, ancIds_none] at hch
      simp at hch
    | some pid =>
      rw [hzp] at hch
      obtain ⟨rest, hr⟩ := ancIds_head hch
      have hpt : pid = tid := by
        simp only [List.nil_append] at hr
        injection hr with h1 h2
        exact h1.symm
      subst hpt
      exact descendantWithin_of_child hz hzp 0
  | cons a l1' ih =>
    intro z hz tid l2 hsplit
    have hch := wf_chain hwf hz
    rw [hsplit] at hch
    cases hzp : z.parent with
    | none =>
      rw [hzp, ancIds_none] at hch
      simp at hch
    | some pid =>
      rw [hzp] at hch
      obtain ⟨rest, hr⟩ := ancIds_head hch
      have hpa : pid = a := by
        simp only [List.cons_append] at hr
        injection hr with h1 h2
        exact h1.symm
      subst hpa
      have hch' : ancIds items (items.length + 1) (some pid) = some (pid :: (l1' ++ tid :: l2)) := by
        simpa using hch
      rcases ancIds_cons_elim hch' with ⟨-, habs⟩ | ⟨w, g', hfw, hw⟩
      · simp at habs
      · have hwmem : w ∈ items := findItem_mem hfw
        have hl : ancestorIds items w = l1' ++ tid :: l2 :=
          ancIds_unique (wf_chain hwf hwmem) hw
        have hd := ih hwmem hl
        have hzw : z.parent = some w.id := by
          rw [hzp, findItem_id_of_eq hfw]
        have := descendantWithin_child_step hd hz hzw
        simpa [Nat.add_comm, Nat.add_assoc, Nat.add_left_comm] using this

theorem descendantWithin_iff_chain {items : Items} (hwf : WellFormed items) {z : Item}
    (hz : z ∈ items) {tid : String} {F : Nat} (hF : items.length ≤ F) :
    (descendantWithin items F tid z.id = true ↔ tid ∈ ancestorIds items z) := by
  constructor
  · exact chain_of_descWithin hwf hz
  · intro hmem
    obtain ⟨l1, l2, hsplit⟩ := List.append_of_mem hmem
    have hd := descWithin_of_chain_split hwf l1 hz hsplit
    apply descendantWithin_mono _ hd
    have hlen := ancestorIds_length_le hwf hz
    rw [hsplit] at hlen
    simp at hlen
    omega

theorem isDescendantOf_iff_mem {items : Items} {z : Item} {tid : String} :
    isDescendantOf items z tid = true ↔ tid ∈ ancestorIds items z := by
  simp [isDescendantOf]

/-! ## Cascade characterization -/

theorem beq_comm_str (a b : String) : (a == b) = (b == a) := by
  by_cases h : a = b <;> simp [h, Ne.symm]

theorem setCheckedOn_skel (items : Items) (sel : String → Bool) (c : Bool) :
    skel (setCheckedOn items sel c) = skel items := by
  simp only [skel, setCheckedOn, List.map_map]
  apply List.map_congr_left
  intro x _
  by_cases h : sel x.id <;> simp [h]

theorem setCheckedOn_length (items : Items) (sel : String → Bool) (c : Bool) :
    (setCheckedOn items sel c).length = items.length := by
  simp [setCheckedOn]

theorem setCheckedOn_congr_sel {items : Items} {s1 s2 : String → Bool} {c : Bool}
    (h : ∀ z, s1 z = s2 z) : setCheckedOn items s1 c = setCheckedOn items s2 c := by
  simp only [setCheckedOn]
  apply List.map_congr_left
  intro x _
  rw [h x.id]

theorem setCheckedOn_of_false {items : Items} {sel : String → Bool} {c : Bool}
    (h : ∀ z, sel z = false) : setCheckedOn items sel c = items := by
  simp only [setCheckedOn]
  have : ∀ x ∈ items, (if sel x.id then { x with checked := c } else x) = x := by
    intro x _
    rw [h x.id]
    simp
  simpa using List.map_congr_left this

theorem setChecked_eq_setCheckedOn (items : Items) (i : String) (c : Bool) :
    setChecked items i c = setCheckedOn items (fun z => z == i) c := rfl

theorem setCheckedOn_comp (items : Items) (s1 s2 : String → Bool) (c : Bool) :
    setCheckedOn (setCheckedOn items s1 c) s2 c
      = setCheckedOn items (fun z => s1 z || s2 z) c := by
  simp only [setCheckedOn, List.map_map]
  apply List.map_congr_left
  intro x _
  by_cases h1 : s1 x.id <;> by_cases h2 : s2 x.id <;> simp [h1, h2]

theorem list_any_congr {α : Type} {p q : α → Bool} :
    ∀ {l : List α}, (∀ x ∈ l, p x = q x) → l.any p = l.any q := by
  intro l
  induction l with
  | nil => intro _; rfl
  | cons x xs ih =>
    intro h
    simp only [List.any_cons]
    rw [h x (by simp), ih (fun y hy => h y (by simp [hy]))]

theorem descendantWithin_congr {xs ys : Items} (h : skel ys = skel xs) :
    ∀ (F : Nat) (pid z : String),
      descendantWithin ys F pid z = descendantWithin xs F pid z := by
  intro F
  induction F with
  | zero => intro pid z; rfl
  | succ F ih =>
    intro pid z
    rw [descendantWithin_succ, descendantWithin_succ, childIds_congr h]
    apply list_any_congr
    intro cid _
    rw [ih]

theorem cascadeChildren_foldl_aux {c : Bool} {F : Nat}
    (hF : ∀ (its : Items) (pid : String),
      cascadeChildren F its pid c = setCheckedOn its (fun z => descendantWithin its F pid z) c)
    (items : Items) :
    ∀ (cs : List String) (s : String → Bool),
      cs.foldl (fun acc cid => cascadeChildren F (setChecked acc cid c) cid c)
          (setCheckedOn items s c)
        = setCheckedOn items
            (fun z => s z || cs.any (fun cid => cid == z || descendantWithin items F cid z)) c := by
  intro cs
  induction cs with
  | nil =>
    intro s
    simp only [List.foldl_nil, List.any_nil]
    exact (setCheckedOn_congr_sel (by intro z; simp)).symm
  | cons cid cs' ih =>
    intro s
    rw [List.foldl_cons]
    have h1 : setChecked (setCheckedOn items s c) cid c
        = setCheckedOn items (fun z => s z || (z == cid)) c := by
      rw [setChecked_eq_setCheckedOn, setCheckedOn_comp]
    rw [h1, hF]
    have hskel : skel (setCheckedOn items (fun z => s z || (z == cid)) c) = skel items :=
      setCheckedOn_skel ..
    have h2 : setCheckedOn (setCheckedOn items (fun z => s z || (z == cid)) c)
          (fun z => descendantWithin (setCheckedOn items (fun z => s z || (z == cid)) c) F cid z) c
        = setCheckedOn items
            (fun z => (s z || (z == cid)) || descendantWithin items F cid z) c := by
      rw [setCheckedOn_comp]
      apply setCheckedOn_congr_sel
      intro z
      rw [descendantWithin_congr hskel]
    rw [h2, ih]
    apply setCheckedOn_congr_sel
    intro z
    rw [List.any_cons]
    rw [beq_comm_str cid z]
    cases s z <;> cases (z == cid) <;> simp

theorem cascadeChildren_eq :
    ∀ (F : Nat) (items : Items) (pid : String) (c : Bool),
      cascadeChildren F items pid c
        = setCheckedOn items (fun z => descendantWithin items F pid z) c := by
  intro F
  induction F with
  | zero =>
    intro items pid c
    rw [show cascadeChildren 0 items pid c = items from rfl]
    exact (setCheckedOn_of_false (fun z => descendantWithin_zero ..)).symm
  | succ F ih =>
    intro items pid c
    have hstep : cascadeChildren (F + 1) items pid c
        = (childIds items pid).foldl
            (fun acc cid => cascadeChildren F (setChecked acc cid c) cid c) items := rfl
    rw [hstep]
    have h0 : items = setCheckedOn items (fun _ => false) c :=
      (setCheckedOn_of_false (fun _ => rfl)).symm
    nth_rewrite 1 [h0]
    rw [cascadeChildren_foldl_aux (fun its pid2 => ih its pid2 c) items (childIds items pid) (fun _ => false)]
    apply setCheckedOn_congr_sel
    intro z
    rw [descendantWithin_succ]
    simp

theorem cascadeChildren_length (F : Nat) (items : Items) (pid : String) (c : Bool) :
    (cascadeChildren F items pid c).length = items.length :=
  skel_length (skel_cascadeChildren ..)

theorem setChecked_length (items : Items) (i : String) (c : Bool) :
    (setChecked items i c).length = items.length := by
  simp [setChecked]

theorem updateItemCheckedWithCascade_eq (items : Items) (target : Item) (c : Bool) :
    updateItemCheckedWithCascade items target c
      = updateParentCheckedStatus (items.length + 1)
          (setCheckedOn items
            (fun z => (z == target.id)
              || descendantWithin items (items.length + 1) target.id z) c)
          { target with checked := c } := by
  have hlen1 : (setChecked items target.id c).length = items.length := setChecked_length ..
  simp only [updateItemCheckedWithCascade, checkAllChildren, uncheckAllChildren, hlen1]
  have hcasc : cascadeChildren (items.length + 1) (setChecked items target.id c)
        target.id c
      = setCheckedOn items
          (fun z => (z == target.id) || descendantWithin items (items.length + 1) target.id z)
          c := by
    rw [cascadeChildren_eq]
    rw [setChecked_eq_setCheckedOn, setCheckedOn_comp]
    apply setCheckedOn_congr_sel
    intro z
    rw [descendantWithin_congr (setCheckedOn_skel ..)]
  have hlen2 : (setCheckedOn items
      (fun z => (z == target.id) || descendantWithin items (items.length + 1) target.id z)
      c).length = items.length := setCheckedOn_length ..
  cases c with
  | true =>
    simp only [if_true]
    rw [hcasc, hlen2]
  | false =>
    simp only [Bool.false_eq_true, if_false]
    rw [hcasc, hlen2]

/-! ## Well-formedness under checked-only changes; upward recompute -/

theorem list_all_congr {α : Type} {p q : α → Bool} :
    ∀ {l : List α}, (∀ x ∈ l, p x = q x) → l.all p = l.all q := by
  intro l
  induction l with
  | nil => intro _; rfl
  | cons x xs ih =>
    intro h
    simp only [List.all_cons]
    rw [h x (by simp), ih (fun y hy => h y (by simp [hy]))]

theorem list_all_map {α β : Type} (f : α → β) (p : β → Bool) :
    ∀ (l : List α), (l.map f).all p = l.all (fun x => p (f x)) := by
  intro l
  induction l with
  | nil => rfl
  | cons x xs ih => simp only [List.map_cons, List.all_cons, ih]

theorem findItem_skel_key (zs : Items) (i : String) :
    (findItem zs i).map (fun it => (it.id, it.parent))
      = (skel zs).find? (fun pr => pr.1 == i) :=
  (List.find?_map (p := fun pr : String × Option String => pr.1 == i)
    (fun it : Item => (it.id, it.parent)) zs).symm

theorem ancIds_congr {xs ys : Items} (h : skel ys = skel xs) :
    ∀ (f : Nat) (o : Option String), ancIds ys f o = ancIds xs f o := by
  intro f
  induction f with
  | zero => intro o; cases o <;> rfl
  | succ f ih =>
    intro o
    cases o with
    | none => rfl
    | some pid =>
      have hkey := findItem_skel_congr h pid
      cases hx : findItem xs pid with
      | none =>
        have hy : findItem ys pid = none := by
          rw [hx] at hkey
          simpa using hkey
        rw [ancIds_some_none _ _ _ hy, ancIds_some_none _ _ _ hx]
      | some w =>
        rw [hx] at hkey
        cases hy : findItem ys pid with
        | none => rw [hy] at hkey; simp at hkey
        | some w' =>
          rw [hy] at hkey
          simp only [Option.map_some'] at hkey
          have hpar : w'.parent = w.parent := congrArg Prod.snd (Option.some.inj hkey)
          rw [ancIds_some_some _ _ _ _ hy, ancIds_some_some _ _ _ _ hx, hpar, ih]

theorem ids_eq_skel_fst (zs : Items) : zs.map Item.id = (skel zs).map Prod.fst := by
  simp [skel, List.map_map]

theorem parentsResolveB_congr {xs ys : Items} (h : skel ys = skel xs) :
    parentsResolveB ys = parentsResolveB xs := by
  have key : ∀ zs : Items, parentsResolveB zs
      = (skel zs).all (fun pr =>
          match pr.2 with
          | none => true
          | some pid => ((skel zs).find? (fun pr2 => pr2.1 == pid)).isSome) := by
    intro zs
    rw [parentsResolveB, skel, list_all_map]
    apply list_all_congr
    intro z _
    show (match z.parent with
          | none => true
          | some pid => (findItem zs pid).isSome) = _
    cases hp : z.parent with
    | none => rfl
    | some pid =>
      show (findItem zs pid).isSome
        = ((skel zs).find? (fun pr2 => pr2.1 == pid)).isSome
      rw [← findItem_skel_key]
      simp
  rw [key, key, h]

theorem acyclicB_congr {xs ys : Items} (h : skel ys = skel xs) :
    acyclicB ys = acyclicB xs := by
  have hlen : ys.length = xs.length := skel_length h
  have key : ∀ zs : Items, acyclicB zs
      = (skel zs).all (fun pr => (ancIds zs (zs.length + 1) pr.2).isSome) := by
    intro zs
    rw [acyclicB, skel, list_all_map]
  rw [key, key, h, hlen]
  apply list_all_congr
  intro pr _
  rw [ancIds_congr h]

theorem wellFormed_congr {xs ys : Items} (h : skel ys = skel xs) :
    WellFormed ys ↔ WellFormed xs := by
  unfold WellFormed
  rw [parentsResolveB_congr h, acyclicB_congr h, ids_eq_skel_fst, ids_eq_skel_fst, h]

theorem ancestorIds_congr {xs ys : Items} (h : skel ys = skel xs) (z : Item) :
    ancestorIds ys z = ancestorIds xs z := by
  rw [ancestorIds, ancestorIds, ancIds_congr h, skel_length h]

theorem findItem_setChecked_other {items : Items} {i x : String} (h : x ≠ i) (c : Bool) :
    findItem (setChecked items i c) x = findItem items x := by
  rw [setChecked, findItem_map _ (setChecked_id_pres i c)]
  cases hf : findItem items x with
  | none => rfl
  | some a =>
    have ha : a.id = x := findItem_id_of_eq hf
    simp [ha, h]

theorem upc_parent_none {child : Item} (hp : child.parent = none) (f : Nat) (items : Items) :
    updateParentCheckedStatus (f + 1) items child = items := by
  rw [updateParentCheckedStatus, hp]

theorem upc_step {items : Items} {child : Item} {pid : String} (hp : child.parent = some pid)
    (hk : (childItems items pid).isEmpty = false) {p : Item}
    (hf : findItem (setChecked items pid ((childItems items pid).all (fun it => it.checked)))
        pid = some p) (f : Nat) :
    updateParentCheckedStatus (f + 1) items child
      = updateParentCheckedStatus f
          (setChecked items pid ((childItems items pid).all (fun it => it.checked))) p := by
  rw [updateParentCheckedStatus, hp]
  simp only [hk, Bool.false_eq_true, if_false, hf]

theorem upwardLevels_parent_none {child : Item} (hp : child.parent = none) (f : Nat)
    (items : Items) : upwardLevels (f + 1) items child = 0 := by
  rw [upwardLevels, hp]

theorem upwardLevels_step {items : Items} {child : Item} {pid : String}
    (hp : child.parent = some pid) (hk : (childItems items pid).isEmpty = false) {p : Item}
    (hf : findItem (setChecked items pid ((childItems items pid).all (fun it => it.checked)))
        pid = some p) (f : Nat) :
    upwardLevels (f + 1) items child
      = 1 + upwardLevels f
          (setChecked items pid ((childItems items pid).all (fun it => it.checked))) p := by
  rw [upwardLevels, hp]
  simp only [hk, Bool.false_eq_true, if_false, hf]

theorem upc_step_data {items : Items} (hwf : WellFormed items) {child : Item}
    (hc : child ∈ items) {pid : String} (hp : child.parent = some pid) :
    ∃ w p : Item,
      findItem items pid = some w
      ∧ p = { w with checked := (childItems items pid).all (fun it => it.checked) }
      ∧ findItem (setChecked items pid ((childItems items pid).all (fun it => it.checked)))
          pid = some p
      ∧ p ∈ setChecked items pid ((childItems items pid).all (fun it => it.checked))
      ∧ WellFormed (setChecked items pid ((childItems items pid).all (fun it => it.checked)))
      ∧ ancestorIds items child
          = pid :: ancestorIds
              (setChecked items pid ((childItems items pid).all (fun it => it.checked))) p
      ∧ (childItems items pid).isEmpty = false := by
  obtain ⟨w, hw⟩ := wf_find_parent hwf hc hp
  have hwid : w.id = pid := findItem_id_of_eq hw
  have hskel : skel (setChecked items pid ((childItems items pid).all (fun it => it.checked)))
      = skel items := skel_setChecked ..
  have hfind1 : findItem (setChecked items pid ((childItems items pid).all (fun it => it.checked)))
      pid = some { w with checked := (childItems items pid).all (fun it => it.checked) } := by
    rw [setChecked,
      findItem_map _ (setChecked_id_pres pid ((childItems items pid).all (fun it => it.checked))),
      hw]
    simp [hwid]
  have hwf1 := (wellFormed_congr hskel).mpr hwf
  have hpmem := findItem_mem hfind1
  have hch := wf_chain hwf hc
  rw [hp] at hch
  rw [ancIds_some_some _ _ _ _ hw] at hch
  cases hM : ancIds items items.length w.parent with
  | none => rw [hM] at hch; simp at hch
  | some M =>
    rw [hM] at hch
    simp only [Option.map_some'] at hch
    have hchainC : ancestorIds items child = pid :: M := (Option.some.inj hch).symm
    have hchain1 : ancestorIds
        (setChecked items pid ((childItems items pid).all (fun it => it.checked)))
        { w with checked := (childItems items pid).all (fun it => it.checked) } = M := by
      rw [ancestorIds, skel_length hskel, ancIds_congr hskel]
      show (ancIds items (items.length + 1) w.parent).getD [] = M
      rw [ancIds_le (Nat.le_succ _) hM]
      rfl
    have hkne : (childItems items pid).isEmpty = false := by
      have hcmem : child ∈ childItems items pid := by
        simp [childItems, List.mem_filter, hc, hp]
      cases hcc : childItems items pid with
      | nil => rw [hcc] at hcmem; cases hcmem
      | cons _ _ => rfl
    exact ⟨w, _, hw, rfl, hfind1, hpmem, hwf1, by rw [hchainC, hchain1], hkne⟩

theorem upc_stable :
    ∀ (f : Nat) (items : Items) (child : Item) (g : Nat), WellFormed items → child ∈ items →
      (ancestorIds items child).length < f → (ancestorIds items child).length < g →
      updateParentCheckedStatus f items child = updateParentCheckedStatus g items child := by
  intro f
  induction f with
  | zero => intro items child g _ _ hf _; omega
  | succ f ih =>
    intro items child g hwf hc hf hg
    obtain ⟨g', rfl⟩ : ∃ g', g = g' + 1 := ⟨g - 1, by omega⟩
    cases hp : child.parent with
    | none => rw [upc_parent_none hp, upc_parent_none hp]
    | some pid =>
      obtain ⟨w, p, hw, hpdef, hfind, hpmem, hwf1, hchain, hkne⟩ := upc_step_data hwf hc hp
      rw [upc_step hp hkne hfind, upc_step hp hkne hfind]
      apply ih _ _ g' hwf1 hpmem
      · rw [hchain] at hf; simp at hf; omega
      · rw [hchain] at hg; simp at hg; omega

theorem upwardLevels_le :
    ∀ (f : Nat) (items : Items) (child : Item), WellFormed items → child ∈ items →
      upwardLevels f items child ≤ (ancestorIds items child).length := by
  intro f
  induction f with
  | zero => intro items child _ _; exact Nat.zero_le _
  | succ f ih =>
    intro items child hwf hc
    cases hp : child.parent with
    | none => rw [upwardLevels_parent_none hp]; exact Nat.zero_le _
    | some pid =>
      obtain ⟨w, p, hw, hpdef, hfind, hpmem, hwf1, hchain, hkne⟩ := upc_step_data hwf hc hp
      rw [upwardLevels_step hp hkne hfind, hchain]
      have := ih _ _ hwf1 hpmem
      simp
      omega

theorem upc_untouched :
    ∀ (f : Nat) (items : Items) (child : Item) (x : String), WellFormed items → child ∈ items →
      x ∉ ancestorIds items child →
      findItem (updateParentCheckedStatus f items child) x = findItem items x := by
  intro f
  induction f with
  | zero => intro items child x _ _ _; rfl
  | succ f ih =>
    intro items child x hwf hc hx
    cases hp : child.parent with
    | none => rw [upc_parent_none hp]
    | some pid =>
      obtain ⟨w, p, hw, hpdef, hfind, hpmem, hwf1, hchain, hkne⟩ := upc_step_data hwf hc hp
      rw [upc_step hp hkne hfind]
      rw [hchain] at hx
      have hx1 : x ∉ ancestorIds
          (setChecked items pid ((childItems items pid).all (fun it => it.checked))) p :=
        fun hmem => hx (List.mem_cons_of_mem _ hmem)
      have hxpid : x ≠ pid := fun he => hx (he ▸ List.mem_cons_self ..)
      rw [ih _ _ _ hwf1 hpmem hx1, findItem_setChecked_other hxpid]

/-! ## Consistency preservation machinery -/

theorem setChecked_parent_pres (i : String) (c : Bool) (x : Item) :
    ((fun it => if it.id == i then { it with checked := c } else it) x).parent = x.parent := by
  by_cases h : x.id = i <;> simp [h]

theorem setCheckedOn_parent_pres (sel : String → Bool) (c : Bool) (x : Item) :
    ((fun it => if sel it.id then { it with checked := c } else it) x).parent = x.parent := by
  by_cases h : sel x.id = true
  · simp [h]
  · simp [h]

theorem childItems_map_pres {items : Items} {g : Item → Item}
    (hg : ∀ x, (g x).parent = x.parent) (i2 : String) :
    childItems (items.map g) i2 = (childItems items i2).map g := by
  simp only [childItems]
  rw [List.filter_map]
  congr 1
  apply List.filter_congr
  intro x _
  simp [hg x]

theorem consistentAtB_eq (items : Items) (z : Item) :
    consistentAtB items z
      = ((childItems items z.id).isEmpty
        || (z.checked == (childItems items z.id).all (fun it => it.checked))) := rfl

theorem consistentB_mem {items : Items} (h : consistentB items = true) {z : Item}
    (hz : z ∈ items) : consistentAtB items z = true :=
  (List.all_eq_true.mp h) z hz

theorem all_checked_const {l : Items} {c : Bool} (h : ∀ k ∈ l, k.checked = c)
    (hne : l ≠ []) : l.all (fun it => it.checked) = c := by
  cases l with
  | nil => exact absurd rfl hne
  | cons k ks =>
    cases c with
    | true =>
      apply List.all_eq_true.mpr
      intro x hx
      exact h x hx
    | false =>
      simp only [List.all_cons, h k (by simp)]
      rfl

theorem upc_consistent :
    ∀ (f : Nat) (items : Items) (child : Item), WellFormed items → child ∈ items →
      (ancestorIds items child).length < f →
      ConsistentExcept items (ancestorIds items child) →
      consistentB (updateParentCheckedStatus f items child) = true := by
  intro f
  induction f with
  | zero => intro items child _ _ hlt _; omega
  | succ f ih =>
    intro items child hwf hc hlt hce
    cases hp : child.parent with
    | none =>
      rw [upc_parent_none hp]
      have hE : ancestorIds items child = [] := by
        rw [ancestorIds, hp, ancIds_none]
        rfl
      rw [consistentB, List.all_eq_true]
      intro z hz
      exact hce z hz (by rw [hE]; simp)
    | some pid =>
      obtain ⟨w, p, hw, hpdef, hfind, hpmem, hwf1, hchain, hkne⟩ := upc_step_data hwf hc hp
      rw [upc_step hp hkne hfind]
      apply ih _ _ hwf1 hpmem
      · rw [hchain] at hlt
        simp at hlt
        omega
      · -- the recomputed list is consistent away from the remaining ancestors
        intro z hz hzE
        rw [setChecked] at hz
        obtain ⟨x, hx, hgx⟩ := List.mem_map.mp hz
        have hzid : z.id = x.id := by
          rw [← hgx]
          exact setChecked_id_pres ..
        have hwid : w.id = pid := findItem_id_of_eq hw
        have hwmem : w ∈ items := findItem_mem hw
        by_cases hzpid : z.id = pid
        · -- z is the freshly recomputed parent
          have hpid2 : p.id = pid := by rw [hpdef]; exact hwid
          have hzp : z = p := eq_of_mem_id hwf1.1 (by rw [setChecked]; exact hz)
            hpmem (by rw [hzpid, hpid2])
          have hnokid : ∀ k ∈ items, k.parent = some pid → k.id ≠ pid := by
            intro k hk hkp hkid
            have hkw : k = w := eq_of_mem_id hwf.1 hk hwmem (by rw [hkid, hwid])
            subst hkw
            have hch := wf_chain hwf hwmem
            rw [hkp] at hch
            obtain ⟨rest, hr⟩ := ancIds_head hch
            have hmm : k.id ∈ ancestorIds items k := by
              rw [hr, hkid]
              simp
            exact not_mem_chain_self hwf hwmem hmm
          have hkids : childItems (setChecked items pid
                ((childItems items pid).all (fun it => it.checked))) pid
              = childItems items pid := by
            rw [setChecked, childItems_map_pres (fun x => setChecked_parent_pres _ _ x)]
            have hid : ∀ k ∈ childItems items pid,
                (if k.id == pid
                  then { k with checked := (childItems items pid).all (fun it => it.checked) }
                  else k) = k := by
              intro k hk
              have hkmem : k ∈ items := List.mem_of_mem_filter hk
              have hkpar : k.parent = some pid := by
                simpa using (List.mem_filter.mp hk).2
              have hne := hnokid k hkmem hkpar
              simp [hne]
            rw [List.map_congr_left hid, List.map_id']
          rw [consistentAtB_eq, hzpid, hkids]
          have hzch : z.checked = (childItems items pid).all (fun it => it.checked) := by
            rw [hzp, hpdef]
          rw [hzch]
          simp
        · -- z is unchanged and off the ancestor path
          have hxid : x.id ≠ pid := by rw [← hzid]; exact hzpid
          have hzx : z = x := by
            rw [← hgx]
            simp [hxid]
          subst hzx
          have hnokid : ∀ k ∈ items, k.parent = some z.id → k.id ≠ pid := by
            intro k hk hkp hkid
            have hkw : k = w := eq_of_mem_id hwf.1 hk hwmem (by rw [hkid, hwid])
            subst hkw
            have hch1 := wf_chain hwf1 hpmem
            have hppar : p.parent = k.parent := by rw [hpdef]
            rw [hppar, hkp] at hch1
            obtain ⟨rest, hr⟩ := ancIds_head hch1
            exact hzE (by rw [hr]; simp)
          have hkids : childItems (setChecked items pid
                ((childItems items pid).all (fun it => it.checked))) z.id
              = childItems items z.id := by
            rw [setChecked, childItems_map_pres (fun x => setChecked_parent_pres _ _ x)]
            have hid : ∀ k ∈ childItems items z.id,
                (if k.id == pid
                  then { k with checked := (childItems items pid).all (fun it => it.checked) }
                  else k) = k := by
              intro k hk
              have hkmem : k ∈ items := List.mem_of_mem_filter hk
              have hkpar : k.parent = some z.id := by
                simpa using (List.mem_filter.mp hk).2
              have hne := hnokid k hkmem hkpar
              simp [hne]
            rw [List.map_congr_left hid, List.map_id']
          have hzE2 : z.id ∉ ancestorIds items child := by
            rw [hchain]
            intro hin
            rcases List.mem_cons.mp hin with he | hin'
            · exact hzpid he
            · exact hzE hin'
          have hcons := hce z hx hzE2
          rw [consistentAtB_eq, hkids]
          rw [consistentAtB_eq] at hcons
          exact hcons

/-! ## Claim theorems -/

/-- C3: the claim states that reparenting an item under itself or under one of
its descendants fails with `CycleWouldForm` and leaves the list unchanged.
The code has no cycle guard at all: reparenting `"a"` under itself succeeds
(no error) and stores the self-cycle, and reparenting `"a"` under its own
child `"b"` succeeds and stores the two-cycle, in both cases modifying the
list.  This evaluates the REST `update_list_item` item logic at those inputs. -/
theorem claim_C3 :
    updateListItem [⟨"a", "A", false, none⟩] "a" none none (some "a")
      = ([⟨"a", "A", false, some "a"⟩], none)
  ∧ updateListItem [⟨"a", "A", false, none⟩, ⟨"b", "B", false, some "a"⟩] "a"
        none none (some "b")
      = ([⟨"a", "A", false, some "b"⟩, ⟨"b", "B", false, some "a"⟩], none)
  ∧ isDescendantOf [⟨"a", "A", false, none⟩, ⟨"b", "B", false, some "a"⟩]
      ⟨"b", "B", false, some "a"⟩ "a" = true := by
  refine ⟨by decide, by decide, by decide⟩

/-- C4: the claim states the MCP item update/delete raise `ItemNotFound` iff
the id is absent.  Because the cli.py not-found check is mis-indented inside
the scan loop, an item present at any position after the first is never
found: with the list `[a, b]`, updating or deleting `"b"` raises
`ItemNotFound` even though `"b"` is present. -/
theorem claim_C4 :
    findItem [⟨"a", "A", false, none⟩, ⟨"b", "B", false, none⟩] "b"
      = some ⟨"b", "B", false, none⟩
  ∧ noteUpdateListItem [⟨"a", "A", false, none⟩, ⟨"b", "B", false, none⟩] "b"
        (some "x") none none
      = ([⟨"a", "A", false, none⟩, ⟨"b", "B", false, none⟩], some KErr.itemNotFound)
  ∧ noteDeleteListItem [⟨"a", "A", false, none⟩, ⟨"b", "B", false, none⟩] "b"
      = ([⟨"a", "A", false, none⟩, ⟨"b", "B", false, none⟩], some KErr.itemNotFound) := by
  refine ⟨by decide, by decide, by decide⟩

/-- C1 fails as stated: a successful sequence of three Adds ends in a state
violating checked-consistency, because adding an *unchecked* child skips the
parent recompute.  Add "a"; add checked "b" under "a" (recompute marks "a"
checked); add unchecked "c" under "a" (no recompute): now "a" is checked
while its children are "b" checked, "c" unchecked. -/
theorem claim_C1_counterexample :
    addListItem [] "a" "A" false none = ([⟨"a", "A", false, none⟩], none)
  ∧ addListItem [⟨"a", "A", false, none⟩] "b" "B" true (some "a")
      = ([⟨"a", "A", true, none⟩, ⟨"b", "B", true, some "a"⟩], none)
  ∧ addListItem [⟨"a", "A", true, none⟩, ⟨"b", "B", true, some "a"⟩] "c" "C" false (some "a")
      = ([⟨"a", "A", true, none⟩, ⟨"b", "B", true, some "a"⟩, ⟨"c", "C", false, some "a"⟩],
         none)
  ∧ consistentB [⟨"a", "A", true, none⟩, ⟨"b", "B", true, some "a"⟩,
      ⟨"c", "C", false, some "a"⟩] = false := by
  refine ⟨by decide, by decide, by decide, by decide⟩

/-- C5 fails as stated for the REST operations: `add_list_item` tests only
Python truthiness, so the null-like string `"null"` is treated as a real
parent id and (absent such an item) the call fails with `ParentNotFound`
instead of creating a top-level item. -/
theorem claim_C5_counterexample :
    isNullLike (some "null") = true
  ∧ addListItem [⟨"a", "A", false, none⟩] "n" "N" false (some "null")
      = ([⟨"a", "A", false, none⟩, ⟨"n", "N", false, none⟩], some KErr.parentNotFound) := by
  refine ⟨by decide, by decide⟩

/-- C5 amended: the MCP add normalizes every null-like parent value (`null`,
`none`, `undefined`, empty, case-insensitive with whitespace stripped, or an
absent field) to a top-level add; the REST add treats only an absent field
and the empty string as "no parent" — the other null-like strings are looked
up as parent ids there. -/
theorem claim_C5_amended :
    (∀ (items : Items) (newId text : String) (checked : Bool) (pv : Option String),
      isNullLike pv = true →
      noteAddListItem items newId text checked pv
        = (items ++ [Item.mk newId text checked none], none))
  ∧ (∀ (items : Items) (newId text : String) (checked : Bool),
      addListItem items newId text checked none
        = (items ++ [Item.mk newId text checked none], none)
      ∧ addListItem items newId text checked (some "")
        = (items ++ [Item.mk newId text checked none], none)) := by
  constructor
  · intro items newId text checked pv h
    cases pv with
    | none => rfl
    | some pid => simp [noteAddListItem, h]
  · intro items newId text checked
    exact ⟨rfl, by simp [addListItem]⟩

/-- Witness for the amended C5 at a concrete input. -/
theorem claim_C5_amended_witness :
    isNullLike (some " None ") = true
  ∧ noteAddListItem [⟨"a", "A", false, none⟩] "n" "N" false (some " None ")
      = ([⟨"a", "A", false, none⟩, ⟨"n", "N", false, none⟩], none) :=
  ⟨by decide,
    claim_C5_amended.1 [⟨"a", "A", false, none⟩] "n" "N" false (some " None ") (by decide)⟩

/-- C6 fails as stated: a REST add whose parent lookup fails has already
appended the new item (it stays in the shared client state, as a top-level
item), and a REST update whose parent lookup fails has already applied the
text change.  Both calls end in `ParentNotFound` with the mutation visible. -/
theorem claim_C6_counterexample :
    addListItem [⟨"a", "A", false, none⟩] "n" "N" false (some "zzz")
      = ([⟨"a", "A", false, none⟩, ⟨"n", "N", false, none⟩], some KErr.parentNotFound)
  ∧ updateListItem [⟨"a", "A", false, none⟩] "a" (some "newtext") none (some "zzz")
      = ([⟨"a", "newtext", false, none⟩], some KErr.parentNotFound) := by
  refine ⟨by decide, by decide⟩

/-- C6 amended: failures raised *before* any mutation are atomic — every
`ItemNotFound` failure of the item update/delete operations (REST and MCP)
leaves the list exactly as it was.  (`ParentNotFound` failures are not
atomic; see the counterexample.) -/
theorem claim_C6_amended :
    (∀ (items : Items) (itemId : String) (textU : Option String) (checkedU : Option Bool)
        (parentU : Option String), findItem items itemId = none →
      updateListItem items itemId textU checkedU parentU = (items, some KErr.itemNotFound))
  ∧ (∀ (items : Items) (itemId : String), findItem items itemId = none →
      deleteListItem items itemId = (items, some KErr.itemNotFound))
  ∧ (∀ (t : Item) (rest : Items) (itemId : String) (textU : Option String)
        (checkedU : Option Bool) (parentU : Option String), t.id ≠ itemId →
      noteUpdateListItem (t :: rest) itemId textU checkedU parentU
        = (t :: rest, some KErr.itemNotFound))
  ∧ (∀ (t : Item) (rest : Items) (itemId : String), t.id ≠ itemId →
      noteDeleteListItem (t :: rest) itemId = (t :: rest, some KErr.itemNotFound)) := by
  refine ⟨?_, ?_, ?_, ?_⟩
  · intro items itemId _ _ _ h; simp [updateListItem, h]
  · intro items itemId h; simp [deleteListItem, h]
  · intro t rest itemId _ _ _ h; simp [noteUpdateListItem, h]
  · intro t rest itemId h; simp [noteDeleteListItem, h]

/-- Witness for the amended C6 at a concrete input. -/
theorem claim_C6_amended_witness :
    findItem [⟨"a", "A", false, none⟩] "zz" = none
  ∧ updateListItem [⟨"a", "A", false, none⟩] "zz" (some "x") none none
      = ([⟨"a", "A", false, none⟩], some KErr.itemNotFound) :=
  ⟨by decide, claim_C6_amended.1 [⟨"a", "A", false, none⟩] "zz" (some "x") none none (by decide)⟩

/-- C9: in the MCP item update, an omitted or null-like `parent_item_id`
together with a target that currently has a parent always dedents the target
to top-level — even when the caller only wanted a text or checked update.
Stated for any call that locates its target (the target is the list's first
item, which is the only position the mis-indented cli.py scan can find). -/
theorem claim_C9 (t : Item) (rest : Items) (textU : Option String) (checkedU : Option Bool)
    (parentU : Option String) (hnull : isNullLike parentU = true)
    (hpar : t.parent.isSome = true) :
    (noteUpdateListItem (t :: rest) t.id textU checkedU parentU).2 = none
  ∧ (findItem (noteUpdateListItem (t :: rest) t.id textU checkedU parentU).1 t.id).map
      Item.parent = some none := by
  have hbeq : (t.id == t.id) = true := by simp
  have hhead : findItem (t :: rest) t.id = some t := by
    simp [findItem, List.find?, hbeq]
  have final : ∀ ys : Items, skel ys = skel (t :: rest) →
      (findItem (setParent ys t.id none) t.id).map Item.parent = some none := by
    intro ys hys
    apply findItem_setParent_self
    rw [findItem_isSome_congr hys t.id, hhead]
    rfl
  cases parentU with
  | none =>
    cases textU with
    | none =>
      cases checkedU with
      | none =>
        simp only [noteUpdateListItem, hbeq, if_true, hpar]
        exact ⟨trivial, final _ rfl⟩
      | some c =>
        simp only [noteUpdateListItem, hbeq, if_true, hpar]
        exact ⟨trivial, final _ (skel_updateItemCheckedWithCascade _ _ _)⟩
    | some tx =>
      cases checkedU with
      | none =>
        simp only [noteUpdateListItem, hbeq, if_true, hpar]
        exact ⟨trivial, final _ (skel_setTextF _ _ _)⟩
      | some c =>
        simp only [noteUpdateListItem, hbeq, if_true, hpar]
        exact ⟨trivial, final _
          ((skel_updateItemCheckedWithCascade _ _ _).trans (skel_setTextF _ _ _))⟩
  | some pid =>
    cases textU with
    | none =>
      cases checkedU with
      | none =>
        simp only [noteUpdateListItem, hbeq, if_true, hnull, hpar]
        exact ⟨trivial, final _ rfl⟩
      | some c =>
        simp only [noteUpdateListItem, hbeq, if_true, hnull, hpar]
        exact ⟨trivial, final _ (skel_updateItemCheckedWithCascade _ _ _)⟩
    | some tx =>
      cases checkedU with
      | none =>
        simp only [noteUpdateListItem, hbeq, if_true, hnull, hpar]
        exact ⟨trivial, final _ (skel_setTextF _ _ _)⟩
      | some c =>
        simp only [noteUpdateListItem, hbeq, if_true, hnull, hpar]
        exact ⟨trivial, final _
          ((skel_updateItemCheckedWithCascade _ _ _).trans (skel_setTextF _ _ _))⟩

/-- Witness for C9 at a concrete input: a text-only MCP update with
`parent_item_id` omitted clears the nesting of item "b". -/
theorem claim_C9_witness :
    isNullLike none = true
  ∧ (⟨"b", "B", false, some "a"⟩ : Item).parent.isSome = true
  ∧ ((noteUpdateListItem [⟨"b", "B", false, some "a"⟩, ⟨"a", "A", false, none⟩] "b"
        (some "t2") none none).2 = none
    ∧ (findItem (noteUpdateListItem [⟨"b", "B", false, some "a"⟩, ⟨"a", "A", false, none⟩]
        "b" (some "t2") none none).1 "b").map Item.parent = some none) :=
  ⟨by decide, by decide,
    claim_C9 ⟨"b", "B", false, some "a"⟩ [⟨"a", "A", false, none⟩] (some "t2") none none
      (by decide) (by decide)⟩

/-- C10: all mutating operations that target an existing note — note update
and delete, the three item operations (REST and MCP add shown, plus update
and delete), and collaborator sharing — fail with the cannot-be-modified
error exactly when the note lacks the `keep-mcp` label and `UNSAFE_MODE` is
not `'true'`.  `create_note` performs no such check but attaches the
`keep-mcp` label to the note it creates, so its target always carries the
label; the read-only operations (`get_note`, `find_note`) perform no
modification check at all. -/
theorem claim_C10 :
    (∀ (env : Option String) (n : Note) (title text : Option String),
      ((updateNote env (some n) title text).2 = some KErr.cannotModify
        ↔ canModifyNote env n = false))
  ∧ (∀ (env : Option String) (n : Note),
      (deleteNote env (some n) = some KErr.cannotModify ↔ canModifyNote env n = false))
  ∧ (∀ (env : Option String) (n : Note) (newId text : String) (checked : Bool)
        (pv : Option String), n.isList = true →
      ((addListItemHandler env (some n) newId text checked pv).2 = some KErr.cannotModify
        ↔ canModifyNote env n = false))
  ∧ (∀ (env : Option String) (n : Note) (newId text : String) (checked : Bool)
        (pv : Option String), n.isList = true →
      ((noteAddListItemHandler env (some n) newId text checked pv).2 = some KErr.cannotModify
        ↔ canModifyNote env n = false))
  ∧ (∀ (env : Option String) (n : Note) (itemId : String) (tU : Option String)
        (cU : Option Bool) (pU : Option String), n.isList = true →
      ((updateListItemHandler env (some n) itemId tU cU pU).2 = some KErr.cannotModify
        ↔ canModifyNote env n = false))
  ∧ (∀ (env : Option String) (n : Note) (itemId : String), n.isList = true →
      ((deleteListItemHandler env (some n) itemId).2 = some KErr.cannotModify
        ↔ canModifyNote env n = false))
  ∧ (∀ (env : Option String) (n : Note) (email : String),
      ((shareNote env (some n) email).2 = some KErr.cannotModify
        ↔ canManageCollaborators env n = false))
  ∧ (∀ (env : Option String) (n : Note) (email : String),
      ((unshareNote env (some n) email).2 = some KErr.cannotModify
        ↔ canManageCollaborators env n = false))
  ∧ (∀ (env : Option String) (title text : Option String),
      ∃ n, createNote env title text = Except.ok n ∧ hasKeepMcpLabel n = true)
  ∧ (∀ note? : Option Note, getNote note? ≠ Except.error KErr.cannotModify)
  ∧ (∀ (notes : List Note) (q : String) (n : Note), n ∈ findNote notes q → n ∈ notes) := by
  refine ⟨?_, ?_, ?_, ?_, ?_, ?_, ?_, ?_, ?_, ?_, ?_⟩
  · intro env n title text
    by_cases hcm : canModifyNote env n <;> simp [updateNote, hcm]
  · intro env n
    by_cases hcm : canModifyNote env n <;> simp [deleteNote, hcm]
  · intro env n newId text checked pv h
    by_cases hcm : canModifyNote env n
    · simp only [addListItemHandler, h, hcm]
      exact iff_of_false (by simpa using addListItem_ne_cannotModify n.items newId text checked pv)
        (by simp [hcm])
    · simp [addListItemHandler, h, hcm]
  · intro env n newId text checked pv h
    by_cases hcm : canModifyNote env n
    · simp only [noteAddListItemHandler, h, hcm]
      exact iff_of_false
        (by simpa using noteAddListItem_ne_cannotModify n.items newId text checked pv)
        (by simp [hcm])
    · simp [noteAddListItemHandler, h, hcm]
  · intro env n itemId tU cU pU h
    by_cases hcm : canModifyNote env n
    · simp only [updateListItemHandler, h, hcm]
      exact iff_of_false (by simpa using updateListItem_ne_cannotModify n.items itemId tU cU pU)
        (by simp [hcm])
    · simp [updateListItemHandler, h, hcm]
  · intro env n itemId h
    by_cases hcm : canModifyNote env n
    · simp only [deleteListItemHandler, h, hcm]
      exact iff_of_false (by simpa using deleteListItem_ne_cannotModify n.items itemId)
        (by simp [hcm])
    · simp [deleteListItemHandler, h, hcm]
  · intro env n email
    by_cases hcm : canManageCollaborators env n <;> simp [shareNote, hcm]
  · intro env n email
    by_cases hcm : canManageCollaborators env n
    · by_cases hc : email ∈ n.collaborators <;> simp [unshareNote, hcm, hc]
    · simp [unshareNote, hcm]
  · intro env title text
    exact ⟨_, rfl, by simp [hasKeepMcpLabel]⟩
  · intro note?
    cases note? <;> simp [getNote]
  · intro notes q n hn
    by_cases hq : q = ""
    · simpa [findNote, hq] using hn
    · rw [findNote, if_neg (by simpa using hq)] at hn
      exact List.mem_of_mem_filter hn

/-- Witness for C10 at a concrete input: a list note without the `keep-mcp`
label and with `UNSAFE_MODE` unset cannot have items updated. -/
theorem claim_C10_witness :
    (⟨none, none, [], [], true, []⟩ : Note).isList = true
  ∧ ((updateListItemHandler none (some ⟨none, none, [], [], true, []⟩) "x" none none none).2
        = some KErr.cannotModify
      ↔ canModifyNote none ⟨none, none, [], [], true, []⟩ = false) :=
  ⟨by decide, claim_C10.2.2.2.2.1 none ⟨none, none, [], [], true, []⟩ "x" none none none
    (by decide)⟩

/-- C8: upward recompute terminates on every well-formed List — the result is
already stable at fuel `items.length + 1` (more fuel never changes it), and
the number of ancestor levels actually visited is at most the total item
count. -/
theorem claim_C8 (items : Items) (child : Item) (hwf : WellFormed items)
    (hc : child ∈ items) :
    (∀ f, items.length < f →
      updateParentCheckedStatus f items child
        = updateParentCheckedStatus (items.length + 1) items child)
  ∧ upwardLevels (items.length + 1) items child ≤ items.length := by
  have hlen := ancestorIds_length_le hwf hc
  constructor
  · intro f hf
    exact upc_stable f items child (items.length + 1) hwf hc (by omega) (by omega)
  · exact le_trans (upwardLevels_le _ _ _ hwf hc) hlen

/-- Witness for C8 at a concrete two-item list. -/
theorem claim_C8_witness :
    WellFormed [⟨"a", "A", false, none⟩, ⟨"b", "B", false, some "a"⟩]
  ∧ (⟨"b", "B", false, some "a"⟩ : Item)
      ∈ ([⟨"a", "A", false, none⟩, ⟨"b", "B", false, some "a"⟩] : Items)
  ∧ ((∀ f, ([⟨"a", "A", false, none⟩, ⟨"b", "B", false, some "a"⟩] : Items).length < f →
      updateParentCheckedStatus f [⟨"a", "A", false, none⟩, ⟨"b", "B", false, some "a"⟩]
          ⟨"b", "B", false, some "a"⟩
        = updateParentCheckedStatus
            (([⟨"a", "A", false, none⟩, ⟨"b", "B", false, some "a"⟩] : Items).length + 1)
            [⟨"a", "A", false, none⟩, ⟨"b", "B", false, some "a"⟩]
            ⟨"b", "B", false, some "a"⟩)
    ∧ upwardLevels
        (([⟨"a", "A", false, none⟩, ⟨"b", "B", false, some "a"⟩] : Items).length + 1)
        [⟨"a", "A", false, none⟩, ⟨"b", "B", false, some "a"⟩]
        ⟨"b", "B", false, some "a"⟩
      ≤ ([⟨"a", "A", false, none⟩, ⟨"b", "B", false, some "a"⟩] : Items).length) :=
  ⟨by decide, by decide,
    claim_C8 [⟨"a", "A", false, none⟩, ⟨"b", "B", false, some "a"⟩]
      ⟨"b", "B", false, some "a"⟩ (by decide) (by decide)⟩

/-- C2: on a well-formed List, `_update_item_checked_with_cascade` sets
`checked = v` on the target and on every descendant at every depth,
unconditionally (the subsequent upward recompute touches only ancestors, and
no ancestor is a descendant). -/
theorem claim_C2 (items : Items) (target : Item) (v : Bool) (hwf : WellFormed items)
    (hmem : target ∈ items) :
    ∀ z ∈ items, (z.id = target.id ∨ isDescendantOf items z target.id = true) →
      (findItem (updateItemCheckedWithCascade items target v) z.id).map Item.checked
        = some v := by
  intro z hz hdz
  rw [updateItemCheckedWithCascade_eq]
  have hskel : skel (setCheckedOn items
      (fun q => (q == target.id) || descendantWithin items (items.length + 1) target.id q) v)
      = skel items := setCheckedOn_skel ..
  have hwf2 := (wellFormed_congr hskel).mpr hwf
  have htmem : ({ target with checked := v }) ∈ setCheckedOn items
      (fun q => (q == target.id) || descendantWithin items (items.length + 1) target.id q) v := by
    rw [setCheckedOn]
    have heq : (if ((target.id == target.id)
          || descendantWithin items (items.length + 1) target.id target.id)
        then { target with checked := v } else target) = { target with checked := v } := by
      simp
    exact heq ▸ List.mem_map_of_mem _ hmem
  have hchain2 : ancestorIds (setCheckedOn items
      (fun q => (q == target.id) || descendantWithin items (items.length + 1) target.id q) v)
      { target with checked := v } = ancestorIds items target := by
    rw [ancestorIds_congr hskel]
    rfl
  have hznotanc : z.id ∉ ancestorIds (setCheckedOn items
      (fun q => (q == target.id) || descendantWithin items (items.length + 1) target.id q) v)
      { target with checked := v } := by
    rw [hchain2]
    intro hmem2
    rcases hdz with heq | hdesc
    · exact not_mem_chain_self hwf hmem (heq ▸ hmem2)
    · exact chain_asymm hwf hz hmem (isDescendantOf_iff_mem.mp hdesc) hmem2
  rw [upc_untouched _ _ _ _ hwf2 htmem hznotanc]
  have hidpres : ∀ x : Item,
      ((fun it => if ((it.id == target.id)
          || descendantWithin items (items.length + 1) target.id it.id)
        then { it with checked := v } else it) x).id = x.id := by
    intro x
    by_cases h : ((x.id == target.id)
        || descendantWithin items (items.length + 1) target.id x.id) = true
    · simp [h]
    · simp [h]
  rw [setCheckedOn, findItem_map _ hidpres, findItem_eq_self hwf.1 hz]
  have hselz : ((z.id == target.id)
      || descendantWithin items (items.length + 1) target.id z.id) = true := by
    rcases hdz with heq | hdesc
    · simp [heq]
    · have h1 := isDescendantOf_iff_mem.mp hdesc
      have h2 := (descendantWithin_iff_chain hwf hz (Nat.le_succ _)).mpr h1
      simp [h2]
  rcases Bool.or_eq_true_iff.mp hselz with hcase | hcase
  · simp [show z.id = target.id from by simpa using hcase]
  · simp [hcase]

/-- Witness for C2 at a concrete list: checking "a" also checks its
grandchild-level descendant chain; here item "b" nested under "a". -/
theorem claim_C2_witness :
    WellFormed [⟨"a", "A", false, none⟩, ⟨"b", "B", false, some "a"⟩]
  ∧ isDescendantOf [⟨"a", "A", false, none⟩, ⟨"b", "B", false, some "a"⟩]
      ⟨"b", "B", false, some "a"⟩ "a" = true
  ∧ (findItem (updateItemCheckedWithCascade
        [⟨"a", "A", false, none⟩, ⟨"b", "B", false, some "a"⟩]
        ⟨"a", "A", false, none⟩ true) "b").map Item.checked = some true :=
  ⟨by decide, by decide,
    claim_C2 [⟨"a", "A", false, none⟩, ⟨"b", "B", false, some "a"⟩]
      ⟨"a", "A", false, none⟩ true (by decide) (by decide)
      ⟨"b", "B", false, some "a"⟩ (by decide) (Or.inr (by decide))⟩

/-- C1 amended: on a well-formed, consistent List, `UpdateChecked` (the
checked cascade of `_update_item_checked_with_cascade`) restores
checked-consistency: after the call every item with at least one child is
checked exactly when all its direct children are. -/
theorem claim_C1_amended (items : Items) (target : Item) (c : Bool)
    (hwf : WellFormed items) (hcons : consistentB items = true) (hmem : target ∈ items) :
    consistentB (updateItemCheckedWithCascade items target c) = true := by
  rw [updateItemCheckedWithCascade_eq]
  have hskel : skel (setCheckedOn items
      (fun q => (q == target.id) || descendantWithin items (items.length + 1) target.id q) c)
      = skel items := setCheckedOn_skel ..
  have hwf2 := (wellFormed_congr hskel).mpr hwf
  have htmem : ({ target with checked := c }) ∈ setCheckedOn items
      (fun q => (q == target.id) || descendantWithin items (items.length + 1) target.id q) c := by
    rw [setCheckedOn]
    have heq : (if ((target.id == target.id)
          || descendantWithin items (items.length + 1) target.id target.id)
        then { target with checked := c } else target) = { target with checked := c } := by
      simp
    exact heq ▸ List.mem_map_of_mem _ hmem
  have hchain2 : ancestorIds (setCheckedOn items
      (fun q => (q == target.id) || descendantWithin items (items.length + 1) target.id q) c)
      { target with checked := c } = ancestorIds items target := by
    rw [ancestorIds_congr hskel]
    rfl
  apply upc_consistent _ _ _ hwf2 htmem
  · rw [hchain2]
    have := ancestorIds_length_le hwf hmem
    omega
  · -- consistency off the ancestor path, in the post-cascade state
    intro z hz hzE
    rw [hchain2] at hzE
    rw [setCheckedOn] at hz
    obtain ⟨x, hx, hgx⟩ := List.mem_map.mp hz
    have hzid : z.id = x.id := by
      rw [← hgx]
      by_cases hq0 : ((x.id == target.id)
          || descendantWithin items (items.length + 1) target.id x.id) = true
      · simp [hq0]
      · simp [hq0]
    -- membership of target.id in a child's chain, from selection of the parent
    have hchild_sel : ∀ y k : Item, y ∈ items → k ∈ items → k.parent = some y.id →
        ((y.id == target.id) || descendantWithin items (items.length + 1) target.id y.id)
          = true →
        ((k.id == target.id) || descendantWithin items (items.length + 1) target.id k.id)
          = true := by
      intro y k hy hk hkp hysel
      have hchk := wf_chain hwf hk
      rw [hkp] at hchk
      obtain ⟨rest, hr⟩ := ancIds_head hchk
      have hyfound : findItem items y.id = some y := findItem_eq_self hwf.1 hy
      have hrest : ancestorIds items k = y.id :: ancestorIds items y := by
        rw [hr]
        congr 1
        rcases ancIds_cons_elim (hr ▸ hchk) with ⟨hfn, -⟩ | ⟨w', g', hfw', hw'⟩
        · rw [hyfound] at hfn; cases hfn
        · rw [hyfound] at hfw'
          cases Option.some.inj hfw'
          exact (ancIds_unique (wf_chain hwf hy) hw').symm
      have htk : target.id ∈ ancestorIds items k := by
        rcases Bool.or_eq_true_iff.mp hysel with he | hd
        · rw [hrest]
          have : y.id = target.id := by simpa using he
          rw [this]
          simp
        · have := (descendantWithin_iff_chain hwf hy (Nat.le_succ _)).mp hd
          rw [hrest]
          exact List.mem_cons_of_mem _ this
      apply Bool.or_eq_true_iff.mpr
      right
      exact (descendantWithin_iff_chain hwf hk (Nat.le_succ _)).mpr htk
    by_cases hselx : ((x.id == target.id)
        || descendantWithin items (items.length + 1) target.id x.id) = true
    · -- selected: z and all its children end up with checked = c
      have hzx : z = { x with checked := c } := by
        rw [← hgx, if_pos hselx]
      have hpres : ∀ y : Item,
          ((fun it => if ((it.id == target.id)
              || descendantWithin items (items.length + 1) target.id it.id)
            then { it with checked := c } else it) y).parent = y.parent := by
        intro y
        by_cases hq1 : ((y.id == target.id)
            || descendantWithin items (items.length + 1) target.id y.id) = true
        · simp [hq1]
        · simp [hq1]
      have hkids : childItems (setCheckedOn items
            (fun q => (q == target.id) || descendantWithin items (items.length + 1) target.id q)
            c) z.id
          = (childItems items z.id).map
              (fun it => if ((it.id == target.id)
                  || descendantWithin items (items.length + 1) target.id it.id)
                then { it with checked := c } else it) := by
        rw [setCheckedOn]
        exact childItems_map_pres hpres z.id
      rw [consistentAtB_eq, hkids]
      cases hcc : childItems items z.id with
      | nil => simp
      | cons k0 ks =>
        have hallc : ∀ k2 ∈ (childItems items z.id).map
            (fun it => if ((it.id == target.id)
                || descendantWithin items (items.length + 1) target.id it.id)
              then { it with checked := c } else it), k2.checked = c := by
          intro k2 hk2
          obtain ⟨k, hk, hk2eq⟩ := List.mem_map.mp hk2
          have hkmem : k ∈ items := List.mem_of_mem_filter hk
          have hkpar : k.parent = some z.id := by
            simpa using (List.mem_filter.mp hk).2
          have hkpar2 : k.parent = some x.id := by rw [← hzid]; exact hkpar
          have hksel := hchild_sel x k hx hkmem hkpar2 hselx
          rw [← hk2eq, if_pos hksel]
        have hne : (childItems items z.id).map
            (fun it => if ((it.id == target.id)
                || descendantWithin items (items.length + 1) target.id it.id)
              then { it with checked := c } else it) ≠ [] := by
          rw [hcc]
          simp
        rw [← hcc]
        rw [all_checked_const hallc hne]
        have hzc : z.checked = c := by rw [hzx]
        rw [hzc]
        simp
    · -- unselected: z, its children and its consistency are untouched
      have hzx : z = x := by
        rw [← hgx, if_neg hselx]
      subst hzx
      have hnosel : ∀ k ∈ childItems items z.id,
          ((k.id == target.id) || descendantWithin items (items.length + 1) target.id k.id)
            = false := by
        intro k hk
        have hkmem : k ∈ items := List.mem_of_mem_filter hk
        have hkpar : k.parent = some z.id := by
          simpa using (List.mem_filter.mp hk).2
        by_contra hne
        have hksel : ((k.id == target.id)
            || descendantWithin items (items.length + 1) target.id k.id) = true := by
          cases hb : ((k.id == target.id)
              || descendantWithin items (items.length + 1) target.id k.id)
          · exact absurd hb hne
          · rfl
        rcases Bool.or_eq_true_iff.mp hksel with he | hd
        · -- this child is the target itself: then z is an ancestor of target
          have hkt : k = target := eq_of_mem_id hwf.1 hkmem hmem (by simpa using he)
          subst hkt
          have hch := wf_chain hwf hmem
          rw [hkpar] at hch
          obtain ⟨rest, hr⟩ := ancIds_head hch
          exact hzE (by rw [hr]; simp)
        · -- this child is a strict descendant: then z is selected after all
          have htk := (descendantWithin_iff_chain hwf hkmem (Nat.le_succ _)).mp hd
          have hchk := wf_chain hwf hkmem
          rw [hkpar] at hchk
          obtain ⟨rest, hr⟩ := ancIds_head hchk
          have hzfound : findItem items z.id = some z := findItem_eq_self hwf.1 hx
          have hrest : ancestorIds items k = z.id :: ancestorIds items z := by
            rw [hr]
            congr 1
            rcases ancIds_cons_elim (hr ▸ hchk) with ⟨hfn, -⟩ | ⟨w', g', hfw', hw'⟩
            · rw [hzfound] at hfn; cases hfn
            · rw [hzfound] at hfw'
              cases Option.some.inj hfw'
              exact (ancIds_unique (wf_chain hwf hx) hw').symm
          rw [hrest] at htk
          rcases List.mem_cons.mp htk with he2 | hin
          · -- target.id = z.id: contradicts hselx
            apply hselx
            apply Bool.or_eq_true_iff.mpr
            left
            simp [he2.symm]
          · -- target.id in z's chain: z is a descendant, contradicts hselx
            apply hselx
            apply Bool.or_eq_true_iff.mpr
            right
            exact (descendantWithin_iff_chain hwf hx (Nat.le_succ _)).mpr hin
      have hpres : ∀ y : Item,
          ((fun it => if ((it.id == target.id)
              || descendantWithin items (items.length + 1) target.id it.id)
            then { it with checked := c } else it) y).parent = y.parent := by
        intro y
        by_cases hq1 : ((y.id == target.id)
            || descendantWithin items (items.length + 1) target.id y.id) = true
        · simp [hq1]
        · simp [hq1]
      have hkids : childItems (setCheckedOn items
            (fun q => (q == target.id) || descendantWithin items (items.length + 1) target.id q)
            c) z.id
          = childItems items z.id := by
        rw [setCheckedOn]
        rw [childItems_map_pres hpres z.id]
        have hid : ∀ k ∈ childItems items z.id,
            (if ((k.id == target.id)
                || descendantWithin items (items.length + 1) target.id k.id)
              then { k with checked := c } else k) = k := by
          intro k hk
          rw [if_neg (by rw [hnosel k hk]; simp)]
        rw [List.map_congr_left hid, List.map_id']
      rw [consistentAtB_eq, hkids]
      have hcons2 := consistentB_mem hcons hx
      rw [consistentAtB_eq] at hcons2
      exact hcons2

/-- Witness for the amended C1 at a concrete consistent two-item list. -/
theorem claim_C1_amended_witness :
    WellFormed [⟨"a", "A", false, none⟩, ⟨"b", "B", false, some "a"⟩]
  ∧ consistentB [⟨"a", "A", false, none⟩, ⟨"b", "B", false, some "a"⟩] = true
  ∧ consistentB (updateItemCheckedWithCascade
      [⟨"a", "A", false, none⟩, ⟨"b", "B", false, some "a"⟩]
      ⟨"b", "B", false, some "a"⟩ true) = true :=
  ⟨by decide, by decide,
    claim_C1_amended [⟨"a", "A", false, none⟩, ⟨"b", "B", false, some "a"⟩]
      ⟨"b", "B", false, some "a"⟩ true (by decide) (by decide) (by decide)⟩

/-! ## Deletion order machinery -/

theorem foldl_append_eq_flatten {α β : Type} (g : α → List β) :
    ∀ (cs : List α) (init : List β),
      cs.foldl (fun acc c => acc ++ g c) init = init ++ (cs.map g).flatten := by
  intro cs
  induction cs with
  | nil => intro init; simp
  | cons c cs' ih =>
    intro init
    rw [List.foldl_cons, ih, List.map_cons, List.flatten_cons, List.append_assoc]

theorem del_succ (items : Items) (F : Nat) (tid : String) :
    deleteItemWithChildren (F + 1) items tid
      = ((childIds items tid).map (deleteItemWithChildren F items)).flatten ++ [tid] := by
  rw [deleteItemWithChildren, foldl_append_eq_flatten]
  rfl

theorem mem_del {items : Items} :
    ∀ {F : Nat} {tid z : String},
      (z ∈ deleteItemWithChildren (F + 1) items tid
        ↔ (z = tid ∨ descendantWithin items F tid z = true)) := by
  intro F
  induction F with
  | zero =>
    intro tid z
    rw [del_succ]
    constructor
    · intro h
      rcases List.mem_append.mp h with h1 | h1
      · obtain ⟨s, hs, hzs⟩ := List.mem_flatten.mp h1
        obtain ⟨c, -, hc⟩ := List.mem_map.mp hs
        rw [← hc] at hzs
        cases hzs
      · exact Or.inl (by simpa using h1)
    · intro h
      rcases h with rfl | h1
      · exact List.mem_append.mpr (Or.inr (by simp))
      · rw [descendantWithin_zero] at h1; cases h1
  | succ F ih =>
    intro tid z
    rw [del_succ]
    constructor
    · intro h
      rcases List.mem_append.mp h with h1 | h1
      · obtain ⟨s, hs, hzs⟩ := List.mem_flatten.mp h1
        obtain ⟨c, hcmem, hc⟩ := List.mem_map.mp hs
        rw [← hc] at hzs
        rcases ih.mp hzs with rfl | hd
        · right
          rw [descendantWithin_succ]
          apply List.any_eq_true.mpr
          exact ⟨z, hcmem, by simp⟩
        · right
          rw [descendantWithin_succ]
          apply List.any_eq_true.mpr
          exact ⟨c, hcmem, by simp [hd]⟩
      · exact Or.inl (by simpa using h1)
    · intro h
      rcases h with rfl | h1
      · exact List.mem_append.mpr (Or.inr (by simp))
      · rw [descendantWithin_succ] at h1
        obtain ⟨c, hcmem, hor⟩ := List.any_eq_true.mp h1
        apply List.mem_append.mpr
        left
        apply List.mem_flatten.mpr
        refine ⟨deleteItemWithChildren (F + 1) items c, List.mem_map_of_mem _ hcmem, ?_⟩
        rcases Bool.or_eq_true_iff.mp hor with he | hd
        · have he2 : c = z := by simpa using he
          exact ih.mpr (Or.inl he2.symm)
        · exact ih.mpr (Or.inr hd)

theorem descendantWithin_resolves {items : Items} :
    ∀ {F : Nat} {tid q : String}, descendantWithin items F tid q = true →
      ∃ w ∈ items, w.id = q := by
  intro F
  induction F with
  | zero => intro tid q h; rw [descendantWithin_zero] at h; cases h
  | succ F ih =>
    intro tid q h
    rw [descendantWithin_succ] at h
    obtain ⟨c, hcmem, hor⟩ := List.any_eq_true.mp h
    rcases Bool.or_eq_true_iff.mp hor with he | hd
    · obtain ⟨w, hw, hwid, -⟩ := childIds_mem.mp hcmem
      exact ⟨w, hw, by rw [hwid]; simpa using he⟩
    · exact ih hd

theorem depthBounded_top {items : Items} (hwf : WellFormed items) {target : Item}
    (hmem : target ∈ items) : DepthBounded items (items.length + 1) target.id := by
  intro z hz l1 l2 hsplit
  have hlen := ancestorIds_length_le hwf hz
  rw [hsplit] at hlen
  simp at hlen
  omega

theorem depthBounded_child {items : Items} (hwf : WellFormed items) {F : Nat} {tid : String}
    (hdb : DepthBounded items (F + 1) tid) {cid : String}
    (hcid : cid ∈ childIds items tid) : DepthBounded items F cid := by
  intro z hz l1 l2 hsplit
  obtain ⟨wc, hwc, hwcid, hwcp⟩ := childIds_mem.mp hcid
  have hch := wf_chain hwf hz
  rw [hsplit] at hch
  obtain ⟨g, hg⟩ := ancIds_suffix l1 hch
  rcases ancIds_cons_elim hg with ⟨hfn, -⟩ | ⟨w', g', hfw', hw'⟩
  · rw [show findItem items cid = some wc from by
      have := findItem_eq_self hwf.1 hwc; rwa [hwcid] at this] at hfn
    cases hfn
  · rw [show findItem items cid = some wc from by
      have := findItem_eq_self hwf.1 hwc; rwa [hwcid] at this] at hfw'
    cases Option.some.inj hfw'
    rw [hwcp] at hw'
    obtain ⟨rest, hr⟩ := ancIds_head hw'
    have hsplit2 : ancestorIds items z = (l1 ++ [cid]) ++ tid :: rest := by
      rw [hsplit, hr]
      simp
    have := hdb z hz (l1 ++ [cid]) rest hsplit2
    simp at this
    omega

theorem del_childClosed {items : Items} (hwf : WellFormed items) {F : Nat} {tid : String}
    (hdb : DepthBounded items (F + 1) tid) :
    ∀ q ∈ deleteItemWithChildren (F + 1) items tid, ∀ z ∈ items, z.parent = some q →
      z.id ∈ deleteItemWithChildren (F + 1) items tid := by
  intro q hq z hz hzp
  have hchz := wf_chain hwf hz
  rw [hzp] at hchz
  obtain ⟨rest, hr⟩ := ancIds_head hchz
  rcases mem_del.mp hq with rfl | hd
  · -- z is a direct child of the deletion target
    have hsplit : ancestorIds items z = [] ++ q :: rest := by rw [hr]; rfl
    have h2 := hdb z hz [] rest hsplit
    simp at h2
    apply mem_del.mpr
    right
    cases F with
    | zero => omega
    | succ F' =>
      exact descendantWithin_of_child hz hzp F'
  · -- z is a child of a strict descendant q of the target
    obtain ⟨wq, hwq, hwqid⟩ := descendantWithin_resolves hd
    have htid : tid ∈ ancestorIds items wq :=
      chain_of_descWithin hwf hwq (by rw [hwqid]; exact hd)
    have hfq : findItem items q = some wq := by
      have := findItem_eq_self hwf.1 hwq
      rwa [hwqid] at this
    -- the chain of z continues with the chain of wq
    have hrest : ancestorIds items z = q :: ancestorIds items wq := by
      rw [hr]
      congr 1
      rcases ancIds_cons_elim (hr ▸ hchz) with ⟨hfn, -⟩ | ⟨w', g', hfw', hw'⟩
      · rw [hfq] at hfn; cases hfn
      · rw [hfq] at hfw'
        cases Option.some.inj hfw'
        exact (ancIds_unique (wf_chain hwf hwq) hw').symm
    have htidz : tid ∈ ancestorIds items z := by
      rw [hrest]
      exact List.mem_cons_of_mem _ htid
    obtain ⟨l1, l2, hsplit⟩ := List.append_of_mem htidz
    have hb := hdb z hz l1 l2 hsplit
    have hdz := descWithin_of_chain_split hwf l1 hz hsplit
    apply mem_del.mpr
    right
    exact descendantWithin_mono (by omega) hdz

theorem takeClosedRel_nil (items : Items) (base : List String) :
    TakeClosedRel items base [] := by
  intro k q hq
  simp at hq

theorem takeClosedRel_append {items : Items} {base l1 l2 : List String}
    (h1 : TakeClosedRel items base l1) (hc1 : ChildClosedRel items base l1)
    (h2 : TakeClosedRel items (base ++ l1) l2) : TakeClosedRel items base (l1 ++ l2) := by
  intro k q hq z hz hzp
  rw [List.take_append_eq_append_take] at hq ⊢
  rcases List.mem_append.mp hq with hq1 | hq2
  · have := h1 k q hq1 z hz hzp
    rcases List.mem_append.mp this with hb | hm
    · exact List.mem_append.mpr (Or.inl hb)
    · exact List.mem_append.mpr (Or.inr (List.mem_append.mpr (Or.inl hm)))
  · -- the prefix extends into l2, so all of l1 is inside it
    have hk : l1.length ≤ k := by
      by_contra hlt
      have : k - l1.length = 0 := by omega
      rw [this, List.take_zero] at hq2
      cases hq2
    have htk : l1.take k = l1 := by
      rw [List.take_of_length_le hk]
    have := h2 (k - l1.length) q hq2 z hz hzp
    rw [htk]
    rcases List.mem_append.mp this with hb | hm
    · rcases List.mem_append.mp hb with hb1 | hb2
      · exact List.mem_append.mpr (Or.inl hb1)
      · exact List.mem_append.mpr (Or.inr (List.mem_append.mpr (Or.inl hb2)))
    · exact List.mem_append.mpr (Or.inr (List.mem_append.mpr (Or.inr hm)))

theorem del_takeClosedRel {items : Items} (hwf : WellFormed items) :
    ∀ (F : Nat) (tid : String), DepthBounded items F tid →
      ∀ (base : List String), TakeClosedRel items base (deleteItemWithChildren F items tid) := by
  intro F
  induction F with
  | zero =>
    intro tid _ base
    exact takeClosedRel_nil items base
  | succ F ih =>
    intro tid hdb base
    rw [del_succ]
    -- prefix-closedness of the concatenated child subtrees
    have hsub : ∀ (cs : List String), (∀ c ∈ cs, c ∈ childIds items tid) →
        ∀ (base' : List String),
          TakeClosedRel items base' ((cs.map (deleteItemWithChildren F items)).flatten) := by
      intro cs
      induction cs with
      | nil =>
        intro _ base'
        simpa using takeClosedRel_nil items base'
      | cons c cs' ihcs =>
        intro hmem base'
        rw [List.map_cons, List.flatten_cons]
        have hdbc : DepthBounded items F c := depthBounded_child hwf hdb (hmem c (by simp))
        apply takeClosedRel_append
        · exact ih c hdbc base'
        · -- children of the subtree of c stay inside it
          intro q hq z hz hzp
          cases F with
          | zero => cases hq
          | succ F' =>
            have := del_childClosed hwf hdbc q hq z hz hzp
            exact List.mem_append.mpr (Or.inr this)
        · exact ihcs (fun c2 hc2 => hmem c2 (by simp [hc2])) _
    apply takeClosedRel_append
    · exact hsub (childIds items tid) (fun c hc => hc) base
    · -- children of flattened-subtree members stay inside the flattened part
      intro q hq z hz hzp
      obtain ⟨s, hs, hqs⟩ := List.mem_flatten.mp hq
      obtain ⟨c, hcmem, hc⟩ := List.mem_map.mp hs
      rw [← hc] at hqs
      have hdbc : DepthBounded items F c := depthBounded_child hwf hdb hcmem
      cases F with
      | zero => cases hqs
      | succ F' =>
        have hzin := del_childClosed hwf hdbc q hqs z hz hzp
        apply List.mem_append.mpr
        right
        apply List.mem_flatten.mpr
        exact ⟨deleteItemWithChildren (F' + 1) items c, List.mem_map_of_mem _ hcmem, hzin⟩
    · -- the final [tid] entry: its children are already in the flattened part
      intro k q hq z hz hzp
      cases k with
      | zero => simp at hq
      | succ k' =>
        have hq2 : q = tid := by simpa using hq
        subst hq2
        have hcid : z.id ∈ childIds items q := childIds_mem.mpr ⟨z, hz, rfl, hzp⟩
        have hzdel : z.id ∈ deleteItemWithChildren F items z.id := by
          cases F with
          | zero =>
            exfalso
            have hchz := wf_chain hwf hz
            rw [hzp] at hchz
            obtain ⟨rest, hr⟩ := ancIds_head hchz
            have hsplit : ancestorIds items z = [] ++ q :: rest := by rw [hr]; rfl
            have := hdb z hz [] rest hsplit
            simp at this
          | succ F' => exact mem_del.mpr (Or.inl rfl)
        apply List.mem_append.mpr
        left
        apply List.mem_append.mpr
        right
        apply List.mem_flatten.mpr
        exact ⟨_, List.mem_map_of_mem _ hcid, hzdel⟩

/-- C7: on a well-formed List, `_delete_item_with_children` deletes exactly
the target and its descendants at every depth; the deletion order is
children-before-parents (every prefix of the deletion sequence is closed
under children of its members, so no observable intermediate state has a
surviving child of a deleted parent); and afterwards no remaining item's
parent references a deleted id. -/
theorem claim_C7 (items : Items) (target : Item) (hwf : WellFormed items)
    (hmem : target ∈ items) :
    (∀ z ∈ items,
      (z.id ∈ deleteItemWithChildren (items.length + 1) items target.id
        ↔ (z.id = target.id ∨ isDescendantOf items z target.id = true)))
  ∧ (∀ k q, q ∈ (deleteItemWithChildren (items.length + 1) items target.id).take k →
      ∀ z ∈ items, z.parent = some q →
        z.id ∈ (deleteItemWithChildren (items.length + 1) items target.id).take k)
  ∧ (∀ z ∈ removeDeleted items (deleteItemWithChildren (items.length + 1) items target.id),
      ∀ q, z.parent = some q →
        q ∉ deleteItemWithChildren (items.length + 1) items target.id) := by
  have hdb := depthBounded_top hwf hmem
  have htcr := del_takeClosedRel hwf (items.length + 1) target.id hdb []
  refine ⟨?_, ?_, ?_⟩
  · intro z hz
    rw [mem_del]
    constructor
    · rintro (he | hd)
      · exact Or.inl he
      · exact Or.inr (isDescendantOf_iff_mem.mpr
          ((descendantWithin_iff_chain hwf hz (le_refl _)).mp hd))
    · rintro (he | hd)
      · exact Or.inl he
      · exact Or.inr ((descendantWithin_iff_chain hwf hz (le_refl _)).mpr
          (isDescendantOf_iff_mem.mp hd))
  · intro k q hq z hz hzp
    have := htcr k q hq z hz hzp
    simpa using this
  · intro z hzr q hzp hqdel
    have hzmem : z ∈ items := List.mem_of_mem_filter hzr
    have hznodel : z.id ∉ deleteItemWithChildren (items.length + 1) items target.id := by
      have hnc := (List.mem_filter.mp hzr).2
      simp at hnc
      exact hnc
    have hq2 : q ∈ (deleteItemWithChildren (items.length + 1) items target.id).take
        (deleteItemWithChildren (items.length + 1) items target.id).length := by
      rw [List.take_length]
      exact hqdel
    have hin := htcr _ q hq2 z hzmem hzp
    rw [List.take_length] at hin
    exact hznodel (by simpa using hin)

/-- Witness for C7 at a concrete three-item chain: deleting "b" removes "b"
and its child "c" and leaves "a" with no dangling reference. -/
theorem claim_C7_witness :
    WellFormed [⟨"a", "A", false, none⟩, ⟨"b", "B", true, some "a"⟩, ⟨"c", "C", true, some "b"⟩]
  ∧ (⟨"b", "B", true, some "a"⟩ : Item)
      ∈ ([⟨"a", "A", false, none⟩, ⟨"b", "B", true, some "a"⟩, ⟨"c", "C", true, some "b"⟩] : Items)
  ∧ deleteItemWithChildren 4
      [⟨"a", "A", false, none⟩, ⟨"b", "B", true, some "a"⟩, ⟨"c", "C", true, some "b"⟩] "b"
      = ["c", "b"]
  ∧ (∀ z ∈ ([⟨"a", "A", false, none⟩, ⟨"b", "B", true, some "a"⟩,
        ⟨"c", "C", true, some "b"⟩] : Items),
      (z.id ∈ deleteItemWithChildren
          (([⟨"a", "A", false, none⟩, ⟨"b", "B", true, some "a"⟩,
            ⟨"c", "C", true, some "b"⟩] : Items).length + 1)
          [⟨"a", "A", false, none⟩, ⟨"b", "B", true, some "a"⟩, ⟨"c", "C", true, some "b"⟩] "b"
        ↔ (z.id = "b" ∨ isDescendantOf
            [⟨"a", "A", false, none⟩, ⟨"b", "B", true, some "a"⟩, ⟨"c", "C", true, some "b"⟩]
            z "b" = true))) :=
  ⟨by decide, by decide, by decide,
    (claim_C7 [⟨"a", "A", false, none⟩, ⟨"b", "B", true, some "a"⟩, ⟨"c", "C", true, some "b"⟩]
      ⟨"b", "B", true, some "a"⟩ (by decide) (by decide)).1⟩
